import Mathlib

/-!
# rclancey/generic : ring buffers and linked list

Shallow embedding of `circular_buffer.go`, `numeric_circular_buffer.go` and
`linked_list.go`.

Modelling conventions.

* A Go slice `[]T` is a `List T`; the slices built by `make([]T, n)` have
  capacity equal to their length.
* Go `int` values (`size`, `head`, indices) are `Int`.  The write counter
  `head` only ever grows by one per `Append`, so the 64-bit wrap-around would
  need `2^63` appends and is not modelled.
* A run-time panic is an explicit `Except.error` carrying a `Panic`; a call
  that returns normally is `Except.ok`.
* The mutex of each structure guards whole calls and has no effect on the
  sequential meaning of a call, so it is not part of the state.
* `float64` is the type `F64`: not-a-number, the two infinities and the finite
  values, the latter as exact rationals (rounding and the sign of zero are not
  modelled).  The conversion `float64(v)` of an integer `v` is the finite value
  `v`.  The library function `math.Sqrt` is a parameter of `RMS`.
* A pointer to a list element is the address of the element in the memory of
  its list, `none` standing for `nil`; reading or writing through `nil` panics.
-/

namespace Generic

/-! ## Go run-time primitives -/

deriving instance DecidableEq for Except

/-- Run-time panics the buffer code can raise. -/
inductive Panic where
  | divideByZero
  | indexOutOfRange
  | makesliceLenOutOfRange
  | nilDereference
  deriving DecidableEq, Repr

/-- The error values of the package (`var ErrIndexOutOfRange = errors.New(...)`). -/
inductive GoError where
  | ErrIndexOutOfRange
  | ErrNoData
  | ErrNotStarted
  deriving DecidableEq, Repr

/-- Go `a % b` on `int`: truncated remainder, panics when `b = 0`. -/
def goMod (a b : Int) : Except Panic Int :=
  if b = 0 then .error .divideByZero else .ok (Int.tmod a b)

/-- Go `make([]T, n)`: `n` zero values, panics when `n < 0`. -/
def goMake {α : Type} (zero : α) (n : Int) : Except Panic (List α) :=
  if n < 0 then .error .makesliceLenOutOfRange else .ok (List.replicate n.toNat zero)

/-- Go `s[i]` as an rvalue: panics unless `0 ≤ i < len(s)`. -/
def goIndex {α : Type} (s : List α) (i : Int) : Except Panic α :=
  if i < 0 then .error .indexOutOfRange
  else match s[i.toNat]? with
    | some v => .ok v
    | none => .error .indexOutOfRange

/-- Go `s[i] = v`: panics unless `0 ≤ i < len(s)`. -/
def goSetIndex {α : Type} (s : List α) (i : Int) (v : α) : Except Panic (List α) :=
  if i < 0 then .error .indexOutOfRange
  else if i.toNat < s.length then .ok (s.set i.toNat v)
  else .error .indexOutOfRange

/-- Go `s[:hi]`: panics unless `0 ≤ hi ≤ cap(s)` (here `cap(s) = len(s)`). -/
def goSliceTo {α : Type} (s : List α) (hi : Int) : Except Panic (List α) :=
  if hi < 0 then .error .indexOutOfRange
  else if hi.toNat ≤ s.length then .ok (s.take hi.toNat)
  else .error .indexOutOfRange

/-- Go `s[lo:]`: panics unless `0 ≤ lo ≤ len(s)`. -/
def goSliceFrom {α : Type} (s : List α) (lo : Int) : Except Panic (List α) :=
  if lo < 0 then .error .indexOutOfRange
  else if lo.toNat ≤ s.length then .ok (s.drop lo.toNat)
  else .error .indexOutOfRange

/-- Go `copy(dst, src)`: overwrites the first `min(len(dst), len(src))`
elements of `dst` with those of `src`; the result is the new content of `dst`. -/
def goCopy {α : Type} (dst src : List α) : List α :=
  src.take dst.length ++ dst.drop src.length

/-! ## circular_buffer.go -/

/-- The struct `CircularBuffer[T]` (without its mutex). -/
structure CircularBuffer (α : Type) where
  buffer : List α
  size : Int
  head : Int
  deriving DecidableEq, Repr

/-- The function `NewCircularBuffer`. -/
def NewCircularBuffer {α : Type} [Inhabited α] (size : Int) : Except Panic (CircularBuffer α) := do
  let buffer ← goMake (default : α) size
  pure { buffer := buffer, size := size, head := 0 }

namespace CircularBuffer

variable {α : Type}

/-- The method `Append`. -/
def Append (cb : CircularBuffer α) (val : α) : Except Panic (CircularBuffer α) := do
  let idx ← goMod cb.head cb.size
  let buffer ← goSetIndex cb.buffer idx val
  pure { cb with buffer := buffer, head := cb.head + 1 }

/-- The method `Get`: the pair `(val, err)`, `err = none` standing for `nil`. -/
def Get [Inhabited α] (cb : CircularBuffer α) (idx : Int) : Except Panic (α × Option GoError) :=
  if idx < 0 ∨ idx ≥ cb.head ∨ idx < cb.head - cb.size then
    pure (default, some .ErrIndexOutOfRange)
  else do
    let i ← goMod idx cb.size
    let v ← goIndex cb.buffer i
    pure (v, none)

/-- The method `Slice`. -/
def Slice [Inhabited α] (cb : CircularBuffer α) : Except Panic (List α) :=
  if cb.head < cb.size then do
    let slice ← goMake (default : α) cb.head
    pure (goCopy slice cb.buffer)
  else do
    let idx ← goMod cb.head cb.size
    let slice ← goMake (default : α) cb.size
    let src ← goSliceTo cb.buffer idx
    let slice := goCopy slice src
    let dst ← goSliceFrom slice idx
    pure (slice.take idx.toNat ++ goCopy dst cb.buffer)

/-- A sequence of `Append` calls, in order. -/
def AppendAll (cb : CircularBuffer α) (vals : List α) : Except Panic (CircularBuffer α) :=
  vals.foldlM Append cb

end CircularBuffer

/-- `NewCircularBuffer(size)` followed by one `Append` per element of `vals`. -/
def runCircular {α : Type} [Inhabited α] (size : Int) (vals : List α) :
    Except Panic (CircularBuffer α) := do
  let cb ← NewCircularBuffer size
  cb.AppendAll vals

/-! ## float64 -/

/-- A `float64` value: not-a-number, minus infinity, a finite value, plus infinity. -/
inductive F64 where
  | nan
  | ninf
  | fin (q : ℚ)
  | pinf
  deriving DecidableEq

namespace F64

/-- Go `math.IsNaN`. -/
def IsNaN : F64 → Bool
  | nan => true
  | _ => false

/-- Go `math.IsInf(f, sign)`: `sign > 0` tests for plus infinity, `sign < 0` for
minus infinity, `sign = 0` for either. -/
def IsInf (f : F64) (sign : Int) : Bool :=
  (decide (sign ≥ 0) && decide (f = pinf)) || (decide (sign ≤ 0) && decide (f = ninf))

/-- Go `math.Inf(sign)`. -/
def Inf (sign : Int) : F64 :=
  if sign ≥ 0 then pinf else ninf

/-- Go `a < b` on `float64`: false as soon as one side is not-a-number. -/
def lt : F64 → F64 → Bool
  | nan, _ => false
  | _, nan => false
  | ninf, ninf => false
  | ninf, _ => true
  | fin _, ninf => false
  | fin a, fin b => decide (a < b)
  | fin _, pinf => true
  | pinf, _ => false

/-- Go `a <= b` on `float64`: false as soon as one side is not-a-number. -/
def le : F64 → F64 → Bool
  | nan, _ => false
  | _, nan => false
  | ninf, _ => true
  | fin _, ninf => false
  | fin a, fin b => decide (a ≤ b)
  | fin _, pinf => true
  | pinf, pinf => true
  | pinf, _ => false

/-- Go `a > b`. -/
def gt (a b : F64) : Bool := lt b a

/-- Go `a >= b`. -/
def ge (a b : F64) : Bool := le b a

/-- Go unary minus. -/
def neg : F64 → F64
  | nan => nan
  | ninf => pinf
  | fin a => fin (-a)
  | pinf => ninf

/-- Go `a + b`, exact on finite values. -/
def add : F64 → F64 → F64
  | nan, _ => nan
  | _, nan => nan
  | pinf, ninf => nan
  | ninf, pinf => nan
  | pinf, _ => pinf
  | _, pinf => pinf
  | ninf, _ => ninf
  | _, ninf => ninf
  | fin a, fin b => fin (a + b)

/-- Go `a - b`, exact on finite values. -/
def sub (a b : F64) : F64 := add a (neg b)

/-- The infinity with the sign of `q`, not-a-number when `q = 0`. -/
def infTimes (positive : Bool) (q : ℚ) : F64 :=
  if q = 0 then nan else if decide (0 < q) = positive then pinf else ninf

/-- Go `a * b`, exact on finite values. -/
def mul : F64 → F64 → F64
  | nan, _ => nan
  | _, nan => nan
  | pinf, pinf => pinf
  | pinf, ninf => ninf
  | ninf, pinf => ninf
  | ninf, ninf => pinf
  | pinf, fin b => infTimes true b
  | ninf, fin b => infTimes false b
  | fin a, pinf => infTimes true a
  | fin a, ninf => infTimes false a
  | fin a, fin b => fin (a * b)

/-- Go `a / b`, exact on finite values; a zero divisor counts as `+0`. -/
def div : F64 → F64 → F64
  | nan, _ => nan
  | _, nan => nan
  | pinf, pinf => nan
  | pinf, ninf => nan
  | ninf, pinf => nan
  | ninf, ninf => nan
  | pinf, fin b => if b < 0 then ninf else pinf
  | ninf, fin b => if b < 0 then pinf else ninf
  | fin _, pinf => fin 0
  | fin _, ninf => fin 0
  | fin a, fin b =>
    if b = 0 then (if a = 0 then nan else if 0 < a then pinf else ninf)
    else fin (a / b)

end F64

/-! ## numeric_circular_buffer.go -/

/-- The constraint `Number`: the element types, each with its Go zero value and
its conversion `float64(v)`. -/
class Number (T : Type) where
  zero : T
  float64 : T → F64

/-- The integer element types (`int`, `int64`, ..., `uint8`): `float64(v)` is the
finite value `v`. -/
instance : Number Int where
  zero := 0
  float64 v := .fin v

/-- The element type `float64`: `float64(v)` is `v`. -/
instance : Number F64 where
  zero := .fin 0
  float64 v := v

/-- The struct `NumericCircularBuffer[T]` (without its mutex). -/
structure NumericCircularBuffer (T : Type) where
  buffer : List T
  size : Int
  head : Int
  count : F64
  sum : F64
  sqsum : F64
  min : F64
  max : F64
  deriving DecidableEq

/-- The function `NewNumericCircularBuffer`; the fields `count`, `sum` and
`sqsum` are left at their zero value. -/
def NewNumericCircularBuffer {T : Type} [Number T] (size : Int) :
    Except Panic (NumericCircularBuffer T) := do
  let buffer ← goMake (Number.zero : T) size
  pure { buffer := buffer, size := size, head := 0,
         count := .fin 0, sum := .fin 0, sqsum := .fin 0,
         min := F64.Inf 1, max := F64.Inf (-1) }

namespace NumericCircularBuffer

variable {T : Type} [Number T]

/-- The loop `for i := ...; i < cb.head; i++` that recomputes the maximum, with
`n` iterations left to run from index `i` and `max` the running value. -/
def rescanMax (cb : NumericCircularBuffer T) : Nat → Int → F64 → Except Panic F64
  | 0, _, max => pure max
  | n + 1, i, max => do
    let j ← goMod i cb.size
    let v ← goIndex cb.buffer j
    let fval := Number.float64 v
    if F64.IsNaN fval then rescanMax cb n (i + 1) max
    else if F64.IsInf fval 1 then pure fval
    else if F64.gt fval max then rescanMax cb n (i + 1) fval
    else rescanMax cb n (i + 1) max

/-- The loop `for i := ...; i < cb.head; i++` that recomputes the minimum, with
`n` iterations left to run from index `i` and `min` the running value. -/
def rescanMin (cb : NumericCircularBuffer T) : Nat → Int → F64 → Except Panic F64
  | 0, _, min => pure min
  | n + 1, i, min => do
    let j ← goMod i cb.size
    let v ← goIndex cb.buffer j
    let fval := Number.float64 v
    if F64.IsNaN fval then rescanMin cb n (i + 1) min
    else if F64.IsInf fval (-1) then pure fval
    else if F64.lt fval min then rescanMin cb n (i + 1) fval
    else rescanMin cb n (i + 1) min

/-- The eviction block of `Append` (`if old >= 0 { ... }`), `idx` being
`cb.head % cb.size`. -/
def evict (cb : NumericCircularBuffer T) (idx : Int) : Except Panic (NumericCircularBuffer T) :=
  let old := cb.head - cb.size
  if old ≥ 0 then do
    let v ← goIndex cb.buffer idx
    let oldVal := Number.float64 v
    if !F64.IsNaN oldVal then
      let cb := { cb with count := F64.sub cb.count (.fin 1),
                          sum := F64.sub cb.sum oldVal,
                          sqsum := F64.sub cb.sqsum (F64.mul oldVal oldVal) }
      if F64.IsInf oldVal 1 || F64.ge oldVal cb.max then do
        let lo := cb.head + 1 - cb.size
        let max ← rescanMax cb (cb.head - lo).toNat lo (F64.Inf (-1))
        pure { cb with max := max }
      else if F64.IsInf oldVal (-1) || F64.le oldVal cb.min then do
        let lo := cb.head + 1 - cb.size
        let min ← rescanMin cb (cb.head - lo).toNat lo (F64.Inf 1)
        pure { cb with min := min }
      else pure cb
    else pure cb
  else pure cb

/-- The insertion block of `Append` (lines `cb.buffer[idx] = val` to `cb.head += 1`). -/
def insert (cb : NumericCircularBuffer T) (idx : Int) (val : T) :
    Except Panic (NumericCircularBuffer T) := do
  let buffer ← goSetIndex cb.buffer idx val
  let cb := { cb with buffer := buffer }
  let fval := Number.float64 val
  let cb :=
    if !F64.IsNaN fval then
      let cb := { cb with count := F64.add cb.count (.fin 1),
                          sum := F64.add cb.sum fval,
                          sqsum := F64.add cb.sqsum (F64.mul fval fval) }
      let cb := if F64.gt fval cb.max then { cb with max := fval } else cb
      let cb := if F64.lt fval cb.min then { cb with min := fval } else cb
      cb
    else cb
  pure { cb with head := cb.head + 1 }

/-- The method `Append`. -/
def Append (cb : NumericCircularBuffer T) (val : T) : Except Panic (NumericCircularBuffer T) := do
  let idx ← goMod cb.head cb.size
  let cb ← evict cb idx
  insert cb idx val

/-- The method `Get`: the pair `(val, err)`, `err = none` standing for `nil`. -/
def Get (cb : NumericCircularBuffer T) (idx : Int) : Except Panic (T × Option GoError) :=
  if idx < 0 ∨ idx ≥ cb.head ∨ idx < cb.head - cb.size then
    pure (Number.zero, some .ErrIndexOutOfRange)
  else do
    let i ← goMod idx cb.size
    let v ← goIndex cb.buffer i
    pure (v, none)

/-- The method `Slice`. -/
def Slice (cb : NumericCircularBuffer T) : Except Panic (List T) :=
  if cb.head < cb.size then do
    let slice ← goMake (Number.zero : T) cb.head
    pure (goCopy slice cb.buffer)
  else do
    let idx ← goMod cb.head cb.size
    let slice ← goMake (Number.zero : T) cb.size
    let src ← goSliceTo cb.buffer idx
    let slice := goCopy slice src
    let dst ← goSliceFrom slice idx
    pure (slice.take idx.toNat ++ goCopy dst cb.buffer)

/-- The method `Min`. -/
def Min (cb : NumericCircularBuffer T) : F64 := cb.min

/-- The method `Max`. -/
def Max (cb : NumericCircularBuffer T) : F64 := cb.max

/-- The method `Sum`. -/
def Sum (cb : NumericCircularBuffer T) : F64 := cb.sum

/-- The method `Mean`. -/
def Mean (cb : NumericCircularBuffer T) : F64 := F64.div cb.sum cb.count

/-- The method `RMS`; the library function `math.Sqrt`, which is not part of
the package, is the parameter `Sqrt`. -/
def RMS (Sqrt : F64 → F64) (cb : NumericCircularBuffer T) : F64 :=
  F64.div (Sqrt cb.sqsum) cb.count

/-- A sequence of `Append` calls, in order. -/
def AppendAll (cb : NumericCircularBuffer T) (vals : List T) :
    Except Panic (NumericCircularBuffer T) :=
  vals.foldlM Append cb

end NumericCircularBuffer

/-- `NewNumericCircularBuffer(size)` followed by one `Append` per element of `vals`. -/
def runNumeric {T : Type} [Number T] (size : Int) (vals : List T) :
    Except Panic (NumericCircularBuffer T) := do
  let cb ← NewNumericCircularBuffer size
  cb.AppendAll vals

/-! ## Sequences of calls -/

/-- One call of a method of a buffer. -/
inductive Call (T : Type) where
  | Append (val : T)
  | Get (idx : Int)
  | Slice

/-- Runs one call on a `CircularBuffer`; the values `Get` and `Slice` return
are dropped, a panic is kept. -/
def CircularBuffer.call {α : Type} [Inhabited α] (cb : CircularBuffer α) :
    Call α → Except Panic (CircularBuffer α)
  | .Append val => cb.Append val
  | .Get idx => do
    let _ ← cb.Get idx
    pure cb
  | .Slice => do
    let _ ← cb.Slice
    pure cb

/-- Runs one call on a `NumericCircularBuffer`; the values `Get` and `Slice`
return are dropped, a panic is kept. -/
def NumericCircularBuffer.call {T : Type} [Number T] (cb : NumericCircularBuffer T) :
    Call T → Except Panic (NumericCircularBuffer T)
  | .Append val => cb.Append val
  | .Get idx => do
    let _ ← cb.Get idx
    pure cb
  | .Slice => do
    let _ ← cb.Slice
    pure cb

/-- `NewCircularBuffer(size)` followed by the calls `calls`, in order. -/
def runCircularCalls {α : Type} [Inhabited α] (size : Int) (calls : List (Call α)) :
    Except Panic (CircularBuffer α) := do
  let cb ← NewCircularBuffer size
  calls.foldlM CircularBuffer.call cb

/-- `NewNumericCircularBuffer(size)` followed by the calls `calls`, in order. -/
def runNumericCalls {T : Type} [Number T] (size : Int) (calls : List (Call T)) :
    Except Panic (NumericCircularBuffer T) := do
  let cb ← NewNumericCircularBuffer size
  calls.foldlM NumericCircularBuffer.call cb

/-- The values a sequence of calls appends, in order. -/
def appended {T : Type} : List (Call T) → List T
  | [] => []
  | .Append val :: calls => val :: appended calls
  | .Get _ :: calls => appended calls
  | .Slice :: calls => appended calls

/-! ## linked_list.go -/

/-- The struct `LinkedListElem[T]`; a pointer `*LinkedListElem[T]` is the
address of an element in the memory of the list, `none` standing for `nil`. -/
structure LinkedListElem (T : Type) where
  prev : Option Nat
  next : Option Nat
  data : T
  deriving DecidableEq

/-- The struct `LinkedList[T]` (without its mutex), together with the memory
`mem` that holds the elements allocated so far, each at its index. -/
structure LinkedList (T : Type) where
  mem : List (LinkedListElem T)
  head : Option Nat
  tail : Option Nat
  zero : T
  size : Int
  deriving DecidableEq

/-- The struct `LinkedListIter[T]`. -/
structure LinkedListIter (T : Type) where
  elem : Option Nat
  started : Bool
  zero : T
  deriving DecidableEq

/-- Reading through a pointer: panics on `nil`. -/
def goDeref {T : Type} (mem : List (LinkedListElem T)) (p : Option Nat) :
    Except Panic (Nat × LinkedListElem T) :=
  match p with
  | none => .error .nilDereference
  | some a =>
    match mem[a]? with
    | some e => .ok (a, e)
    | none => .error .nilDereference

/-- The function `NewLinkedList`. -/
def NewLinkedList {T : Type} [Inhabited T] : LinkedList T :=
  { mem := [], head := none, tail := none, zero := default, size := 0 }

namespace LinkedListIter

variable {T : Type}

/-- The method `Next` of the iterator: the new iterator and the result. -/
def Next (mem : List (LinkedListElem T)) (iter : LinkedListIter T) :
    Except Panic (LinkedListIter T × Bool) :=
  if iter.elem = none then pure (iter, false)
  else if iter.started then do
    let (_, e) ← goDeref mem iter.elem
    let iter := { iter with elem := e.next }
    pure (iter, decide (iter.elem ≠ none))
  else
    let iter := { iter with started := true }
    pure (iter, decide (iter.elem ≠ none))

/-- The method `Get` of the iterator: the pair `(val, err)`. -/
def Get (mem : List (LinkedListElem T)) (iter : LinkedListIter T) :
    Except Panic (T × Option GoError) :=
  if !iter.started then pure (iter.zero, some .ErrNotStarted)
  else if iter.elem = none then pure (iter.zero, some .ErrNoData)
  else do
    let (_, e) ← goDeref mem iter.elem
    pure (e.data, none)

end LinkedListIter

namespace LinkedList

variable {T : Type}

/-- The method `Push`. -/
def Push (ll : LinkedList T) (item : T) : Except Panic (LinkedList T) :=
  if ll.tail = none then
    let addr := ll.mem.length
    pure { ll with mem := ll.mem ++ [{ prev := none, next := none, data := item }],
                   head := some addr, tail := some addr, size := ll.size + 1 }
  else do
    let addr := ll.mem.length
    let mem := ll.mem ++ [{ prev := ll.tail, next := none, data := item }]
    let (t, e) ← goDeref mem ll.tail
    let mem := mem.set t { e with next := some addr }
    pure { ll with mem := mem, tail := some addr, size := ll.size + 1 }

/-- The method `Unshift`. -/
def Unshift (ll : LinkedList T) (item : T) : Except Panic (LinkedList T) :=
  if ll.head = none then
    let addr := ll.mem.length
    pure { ll with mem := ll.mem ++ [{ prev := none, next := none, data := item }],
                   head := some addr, tail := some addr, size := ll.size + 1 }
  else do
    let addr := ll.mem.length
    let mem := ll.mem ++ [{ prev := none, next := ll.head, data := item }]
    let (h, e) ← goDeref mem ll.head
    let mem := mem.set h { e with prev := some addr }
    pure { ll with mem := mem, head := some addr, size := ll.size + 1 }

/-- The method `pop`: the value returned and the list afterwards. -/
def pop (ll : LinkedList T) : Except Panic (T × LinkedList T) :=
  if ll.tail = none then pure (ll.zero, ll)
  else do
    let (_, elem) ← goDeref ll.mem ll.tail
    let (p, pe) ← goDeref ll.mem elem.prev
    let mem := ll.mem.set p { pe with next := none }
    pure (elem.data, { ll with mem := mem, tail := elem.prev, size := ll.size - 1 })

/-- The method `Pop`. -/
def Pop (ll : LinkedList T) : Except Panic (T × LinkedList T) := ll.pop

/-- The method `shift`: the value returned and the list afterwards. -/
def shift (ll : LinkedList T) : Except Panic (T × LinkedList T) :=
  if ll.head = none then pure (ll.zero, ll)
  else do
    let (_, elem) ← goDeref ll.mem ll.head
    let (n, ne) ← goDeref ll.mem elem.next
    let mem := ll.mem.set n { ne with prev := none }
    pure (elem.data, { ll with mem := mem, head := elem.next, size := ll.size - 1 })

/-- The method `Shift`. -/
def Shift (ll : LinkedList T) : Except Panic (T × LinkedList T) := ll.shift

/-- The method `Len`. -/
def Len (ll : LinkedList T) : Int := ll.size

/-- The method `Iter`. -/
def Iter (ll : LinkedList T) : LinkedListIter T :=
  { elem := ll.head, started := false, zero := ll.zero }

/-- The loop `for iter.Next() { ... }` of `Slice`, with at most `fuel` more
tests of its condition to run; it returns `s` and `i`.  Every turn that does
not leave the loop adds one to `i` and the loop is left once `i >= ll.size`,
so `ll.size + 1` tests are enough. -/
def sliceLoop (ll : LinkedList T) :
    Nat → LinkedListIter T → List T → Int → Except Panic (List T × Int)
  | 0, _, s, i => pure (s, i)
  | fuel + 1, iter, s, i => do
    let (iter, more) ← iter.Next ll.mem
    if !more then pure (s, i)
    else if i ≥ ll.size then pure (s, i)
    else do
      let (val, err) ← iter.Get ll.mem
      if err ≠ none then pure (s, i)
      else do
        let s ← goSetIndex s i val
        sliceLoop ll fuel iter s (i + 1)

/-- The method `Slice`; the `nil` slice is the empty list. -/
def Slice (ll : LinkedList T) : Except Panic (List T) :=
  if ll.head = none then pure []
  else do
    let s ← goMake ll.zero ll.size
    let (s, i) ← sliceLoop ll (ll.size.toNat + 1) ll.Iter s 0
    if i < ll.size then goSliceTo s i
    else pure s

end LinkedList

/-! ## Specification vocabulary -/

/-- The ring of a `NumericCircularBuffer`, as a `CircularBuffer`. -/
def NumericCircularBuffer.toRing {T : Type} (cb : NumericCircularBuffer T) : CircularBuffer T :=
  { buffer := cb.buffer, size := cb.size, head := cb.head }

/-- The Go zero value of an element type of the constraint `Number`. -/
def Number.inhabited (T : Type) [Number T] : Inhabited T := ⟨Number.zero⟩

/-- The last `c` elements of `vs`, oldest first (all of `vs` when it has fewer). -/
def lastN {α : Type} (c : Nat) (vs : List α) : List α :=
  vs.drop (vs.length - c)

/-- The content of a ring of `c` slots after the writes `vs`: every write that
has not been overwritten since sits in the slot given by its index modulo `c`. -/
def RingInv {α : Type} (c : Nat) (vs buffer : List α) : Prop :=
  buffer.length = c ∧
    ∀ i, i < vs.length → vs.length ≤ i + c → buffer[i % c]? = vs[i]?

/-- The state of a `CircularBuffer` of capacity `c` after the appends `vs`. -/
def CircularBuffer.Reach {α : Type} (c : Nat) (vs : List α) (cb : CircularBuffer α) : Prop :=
  cb.size = (c : Int) ∧ cb.head = (vs.length : Int) ∧ RingInv c vs cb.buffer

/-- The state of the ring of a `NumericCircularBuffer` of capacity `c` after the
appends `vs`. -/
def NumericCircularBuffer.Reach {T : Type} (c : Nat) (vs : List T)
    (cb : NumericCircularBuffer T) : Prop :=
  cb.size = (c : Int) ∧ cb.head = (vs.length : Int) ∧ RingInv c vs cb.buffer

/-- The value `m` is the exact maximum of the values of `xs` that are not
not-a-number: it bounds them all and is one of them, or there is none and `m`
is minus infinity. -/
def IsMaxOf (xs : List F64) (m : F64) : Prop :=
  (∀ x ∈ xs, x.IsNaN = false → F64.le x m = true) ∧
    ((m ∈ xs ∧ m.IsNaN = false) ∨ ((∀ x ∈ xs, x.IsNaN = true) ∧ m = .ninf))

/-- The value `m` is the exact minimum of the values of `xs` that are not
not-a-number: it bounds them all from below and is one of them, or there is none
and `m` is plus infinity. -/
def IsMinOf (xs : List F64) (m : F64) : Prop :=
  (∀ x ∈ xs, x.IsNaN = false → F64.le m x = true) ∧
    ((m ∈ xs ∧ m.IsNaN = false) ∨ ((∀ x ∈ xs, x.IsNaN = true) ∧ m = .pinf))

instance (xs : List F64) (m : F64) : Decidable (IsMaxOf xs m) := by
  unfold IsMaxOf; infer_instance

instance (xs : List F64) (m : F64) : Decidable (IsMinOf xs m) := by
  unfold IsMinOf; infer_instance

/-- What the maximum loop of `Append` computes when the slots it reads hold the
values `xs`, in the order read, starting from the running value `max`. -/
def scanMax : List F64 → F64 → F64
  | [], max => max
  | fval :: xs, max =>
    if F64.IsNaN fval then scanMax xs max
    else if F64.IsInf fval 1 then fval
    else if F64.gt fval max then scanMax xs fval
    else scanMax xs max

/-- What the minimum loop of `Append` computes when the slots it reads hold the
values `xs`, in the order read, starting from the running value `min`. -/
def scanMin : List F64 → F64 → F64
  | [], min => min
  | fval :: xs, min =>
    if F64.IsNaN fval then scanMin xs min
    else if F64.IsInf fval (-1) then fval
    else if F64.lt fval min then scanMin xs fval
    else scanMin xs min

/-- What the eviction block of `Append` leaves when the slot about to be
overwritten converts to `oldVal` and the other resident slots, oldest first, to
`others`. -/
def NumericCircularBuffer.evictTo {T : Type} (cb : NumericCircularBuffer T) (oldVal : F64)
    (others : List F64) : NumericCircularBuffer T :=
  if !F64.IsNaN oldVal then
    let cb := { cb with count := F64.sub cb.count (.fin 1),
                        sum := F64.sub cb.sum oldVal,
                        sqsum := F64.sub cb.sqsum (F64.mul oldVal oldVal) }
    if F64.IsInf oldVal 1 || F64.ge oldVal cb.max then
      { cb with max := scanMax others (F64.Inf (-1)) }
    else if F64.IsInf oldVal (-1) || F64.le oldVal cb.min then
      { cb with min := scanMin others (F64.Inf 1) }
    else cb
  else cb

/-- What the insertion block of `Append` leaves, the write into slot `slot`
being in range. -/
def NumericCircularBuffer.insertTo {T : Type} [Number T] (cb : NumericCircularBuffer T)
    (slot : Nat) (val : T) : NumericCircularBuffer T :=
  let cb := { cb with buffer := cb.buffer.set slot val }
  let fval := Number.float64 val
  let cb :=
    if !F64.IsNaN fval then
      let cb := { cb with count := F64.add cb.count (.fin 1),
                          sum := F64.add cb.sum fval,
                          sqsum := F64.add cb.sqsum (F64.mul fval fval) }
      let cb := if F64.gt fval cb.max then { cb with max := fval } else cb
      let cb := if F64.lt fval cb.min then { cb with min := fval } else cb
      cb
    else cb
  { cb with head := cb.head + 1 }

/-! ## Go primitives on in-range arguments -/

theorem goMod_natCast (a c : Nat) (hc : 0 < c) :
    goMod (a : Int) (c : Int) = .ok ((a % c : Nat) : Int) := by
  have h : (c : Int) ≠ 0 := by omega
  simp only [goMod, h, if_false]
  rw [Int.ofNat_tmod]

theorem goIndex_natCast {α : Type} (s : List α) (i : Nat) (v : α) (h : s[i]? = some v) :
    goIndex s (i : Int) = .ok v := by
  have h0 : ¬ ((i : Int) < 0) := by omega
  simp [goIndex, h0, h]

theorem goSetIndex_natCast {α : Type} (s : List α) (i : Nat) (v : α) (h : i < s.length) :
    goSetIndex s (i : Int) v = .ok (s.set i v) := by
  have h0 : ¬ ((i : Int) < 0) := by omega
  simp [goSetIndex, h0, h]

theorem mod_ne_of_lt_of_lt {c i n : Nat} (h1 : i < n) (h2 : n < i + c) : i % c ≠ n % c := by
  intro h
  have hd : c ∣ n - i := (Nat.modEq_iff_dvd' (Nat.le_of_lt h1)).1 h
  have hle : c ≤ n - i := Nat.le_of_dvd (by omega) hd
  omega

/-! ## The ring invariant -/

theorem RingInv_replicate {α : Type} (c : Nat) (z : α) : RingInv c [] (List.replicate c z) := by
  constructor
  · simp
  · intro i hi
    simp at hi

theorem RingInv_set {α : Type} {c : Nat} {vs buffer : List α} (hc : 0 < c)
    (h : RingInv c vs buffer) (v : α) :
    RingInv c (vs ++ [v]) (buffer.set (vs.length % c) v) := by
  obtain ⟨hlen, hres⟩ := h
  refine ⟨by simp [hlen], ?_⟩
  intro i hi hic
  have hm : vs.length % c < buffer.length := by
    rw [hlen]; exact Nat.mod_lt _ hc
  simp only [List.length_append, List.length_singleton] at hi hic
  by_cases hin : i = vs.length
  · subst hin
    rw [List.getElem?_set_self hm]
    simp
  · have hlt : i < vs.length := by omega
    have hne : vs.length % c ≠ i % c := fun e => mod_ne_of_lt_of_lt hlt (by omega) e.symm
    rw [List.getElem?_set_ne hne, hres i hlt (by omega), List.getElem?_append_left hlt]

theorem RingInv_oldest {α : Type} {c : Nat} {vs buffer : List α}
    (h : RingInv c vs buffer) (hn : c ≤ vs.length) (hc : 0 < c) :
    buffer[vs.length % c]? = vs[vs.length - c]? := by
  have e : vs.length % c = (vs.length - c) % c := by
    conv_lhs => rw [show vs.length = (vs.length - c) + c by omega]
    exact Nat.add_mod_right _ _
  rw [e]
  exact h.2 (vs.length - c) (by omega) (by omega)

theorem ring_read {α : Type} {c : Nat} {vs buffer : List α} (h : RingInv c vs buffer)
    (i : Nat) (hi : i < vs.length) (hic : vs.length ≤ i + c) :
    ∃ v, vs[i]? = some v ∧ goIndex buffer ((i % c : Nat) : Int) = .ok v := by
  refine ⟨vs[i], List.getElem?_eq_getElem hi, ?_⟩
  apply goIndex_natCast
  rw [h.2 i hi hic, List.getElem?_eq_getElem hi]

/-! ## Reachable states of `CircularBuffer` -/

theorem NewCircularBuffer_natCast {α : Type} [Inhabited α] (c : Nat) :
    NewCircularBuffer (c : Int) =
      .ok ({ buffer := List.replicate c default, size := c, head := 0 } : CircularBuffer α) := by
  have h0 : ¬ ((c : Int) < 0) := by omega
  simp [NewCircularBuffer, goMake, h0, bind, Except.bind, pure, Except.pure]

theorem CircularBuffer.Append_reach {α : Type} {c : Nat} {vs : List α} {cb : CircularBuffer α}
    (h : CircularBuffer.Reach c vs cb) (hc : 0 < c) (v : α) :
    ∃ cb1, cb.Append v = .ok cb1 ∧ CircularBuffer.Reach c (vs ++ [v]) cb1 := by
  obtain ⟨hs, hh, hr⟩ := h
  have hm : vs.length % c < cb.buffer.length := by
    rw [hr.1]; exact Nat.mod_lt _ hc
  refine ⟨{ cb with buffer := cb.buffer.set (vs.length % c) v, head := cb.head + 1 }, ?_, ?_⟩
  · simp only [CircularBuffer.Append, hs, hh, goMod_natCast _ _ hc,
      goSetIndex_natCast _ _ _ hm, bind, Except.bind]
    rfl
  · refine ⟨hs, ?_, RingInv_set hc hr v⟩
    simp [hh]

theorem CircularBuffer.AppendAll_reach {α : Type} {c : Nat} (hc : 0 < c) (ws : List α) :
    ∀ (vs : List α) (cb : CircularBuffer α), CircularBuffer.Reach c vs cb →
      ∃ cb1, cb.AppendAll ws = .ok cb1 ∧ CircularBuffer.Reach c (vs ++ ws) cb1 := by
  induction ws with
  | nil =>
    intro vs cb h
    exact ⟨cb, rfl, by simpa using h⟩
  | cons w ws ih =>
    intro vs cb h
    obtain ⟨cb1, h1, hr1⟩ := CircularBuffer.Append_reach h hc w
    obtain ⟨cb2, h2, hr2⟩ := ih (vs ++ [w]) cb1 hr1
    refine ⟨cb2, ?_, by simpa using hr2⟩
    simp only [CircularBuffer.AppendAll, List.foldlM_cons, h1] at h2 ⊢
    exact h2

theorem runCircular_reach {α : Type} [Inhabited α] {c : Nat} (hc : 0 < c) (vs : List α) :
    ∃ cb, runCircular (c : Int) vs = .ok cb ∧ CircularBuffer.Reach c vs cb := by
  have h0 : CircularBuffer.Reach c ([] : List α)
      { buffer := List.replicate c default, size := c, head := 0 } :=
    ⟨rfl, rfl, RingInv_replicate c default⟩
  obtain ⟨cb, h1, hr⟩ := CircularBuffer.AppendAll_reach hc vs [] _ h0
  refine ⟨cb, ?_, by simpa using hr⟩
  simp only [runCircular, NewCircularBuffer_natCast]
  exact h1

theorem CircularBuffer.Get_reach {α : Type} [Inhabited α] {c : Nat} {vs : List α}
    {cb : CircularBuffer α} (h : CircularBuffer.Reach c vs cb) (hc : 0 < c) (idx : Int) :
    (idx < 0 ∨ idx ≥ vs.length ∨ idx < (vs.length : Int) - c →
      cb.Get idx = .ok (default, some .ErrIndexOutOfRange)) ∧
    (¬ (idx < 0 ∨ idx ≥ vs.length ∨ idx < (vs.length : Int) - c) →
      ∃ v, vs[idx.toNat]? = some v ∧ cb.Get idx = .ok (v, none)) := by
  obtain ⟨hs, hh, hr⟩ := h
  constructor
  · intro hout
    simp [CircularBuffer.Get, hs, hh, hout, pure, Except.pure]
  · intro hin
    obtain ⟨i, rfl⟩ := Int.eq_ofNat_of_zero_le (show 0 ≤ idx by omega)
    obtain ⟨v, hv, hread⟩ := ring_read hr i (by omega) (by omega)
    refine ⟨v, by simpa using hv, ?_⟩
    simp only [CircularBuffer.Get, hs, hh, if_neg hin, goMod_natCast _ _ hc, hread,
      bind, Except.bind]
    rfl

/-! ## The loops and blocks of the numeric `Append` on reachable states -/

theorem rescanMax_eq {T : Type} [Number T] (cb : NumericCircularBuffer T) {c : Nat}
    (hc : 0 < c) (hs : cb.size = (c : Int)) (xs : List T) :
    ∀ (lo : Nat) (m : F64), (∀ j, j < xs.length → cb.buffer[(lo + j) % c]? = xs[j]?) →
      cb.rescanMax xs.length (lo : Int) m = .ok (scanMax (xs.map Number.float64) m) := by
  induction xs with
  | nil => intro lo m _; rfl
  | cons x xs ih =>
    intro lo m h
    have h0 : goIndex cb.buffer ((lo % c : Nat) : Int) = .ok x :=
      goIndex_natCast _ _ _ (by simpa using h 0 (by simp))
    have hn : ∀ m1, cb.rescanMax xs.length ((lo : Int) + 1) m1 =
        .ok (scanMax (xs.map Number.float64) m1) := by
      intro m1
      have := ih (lo + 1) m1 (fun j hj => by
        have := h (j + 1) (by simpa using hj)
        simpa [Nat.add_assoc, Nat.add_comm 1 j] using this)
      simpa using this
    simp only [List.length_cons, NumericCircularBuffer.rescanMax, hs, goMod_natCast _ _ hc, h0,
      bind, Except.bind, hn, List.map_cons, scanMax]
    split <;> [rfl; (split <;> [rfl; (split <;> rfl)])]

theorem rescanMin_eq {T : Type} [Number T] (cb : NumericCircularBuffer T) {c : Nat}
    (hc : 0 < c) (hs : cb.size = (c : Int)) (xs : List T) :
    ∀ (lo : Nat) (m : F64), (∀ j, j < xs.length → cb.buffer[(lo + j) % c]? = xs[j]?) →
      cb.rescanMin xs.length (lo : Int) m = .ok (scanMin (xs.map Number.float64) m) := by
  induction xs with
  | nil => intro lo m _; rfl
  | cons x xs ih =>
    intro lo m h
    have h0 : goIndex cb.buffer ((lo % c : Nat) : Int) = .ok x :=
      goIndex_natCast _ _ _ (by simpa using h 0 (by simp))
    have hn : ∀ m1, cb.rescanMin xs.length ((lo : Int) + 1) m1 =
        .ok (scanMin (xs.map Number.float64) m1) := by
      intro m1
      have := ih (lo + 1) m1 (fun j hj => by
        have := h (j + 1) (by simpa using hj)
        simpa [Nat.add_assoc, Nat.add_comm 1 j] using this)
      simpa using this
    simp only [List.length_cons, NumericCircularBuffer.rescanMin, hs, goMod_natCast _ _ hc, h0,
      bind, Except.bind, hn, List.map_cons, scanMin]
    split <;> [rfl; (split <;> [rfl; (split <;> rfl)])]

theorem NumericCircularBuffer.evict_eq_of_lt {T : Type} [Number T] {c : Nat} {vs : List T}
    {cb : NumericCircularBuffer T} (h : NumericCircularBuffer.Reach c vs cb)
    (hn : vs.length < c) (idx : Int) : cb.evict idx = .ok cb := by
  obtain ⟨hs, hh, _⟩ := h
  have h0 : ¬ ((vs.length : Int) - (c : Int) ≥ 0) := by omega
  simp only [NumericCircularBuffer.evict, hs, hh, if_neg h0]
  rfl

theorem NumericCircularBuffer.evict_eq_of_le {T : Type} [Number T] {c : Nat} {vs : List T}
    {cb : NumericCircularBuffer T} (h : NumericCircularBuffer.Reach c vs cb) (hc : 0 < c)
    (hn : c ≤ vs.length) (old : T) (hold : vs[vs.length - c]? = some old) :
    cb.evict ((vs.length % c : Nat) : Int) =
      .ok (cb.evictTo (Number.float64 old)
        ((vs.drop (vs.length + 1 - c)).map Number.float64)) := by
  obtain ⟨hs, hh, hr⟩ := h
  have h0 : (vs.length : Int) - (c : Int) ≥ 0 := by omega
  have hread : goIndex cb.buffer ((vs.length % c : Nat) : Int) = .ok old :=
    goIndex_natCast _ _ _ (by rw [RingInv_oldest hr hn hc, hold])
  have hlo : (vs.length : Int) + 1 - (c : Int) = ((vs.length + 1 - c : Nat) : Int) := by omega
  have hk : ((vs.length : Int) - ((vs.length + 1 - c : Nat) : Int)).toNat
      = (vs.drop (vs.length + 1 - c)).length := by
    simp only [List.length_drop]; omega
  have hres : ∀ j, j < (vs.drop (vs.length + 1 - c)).length →
      cb.buffer[(vs.length + 1 - c + j) % c]? = (vs.drop (vs.length + 1 - c))[j]? := by
    intro j hj
    simp only [List.length_drop] at hj
    rw [List.getElem?_drop]
    exact hr.2 _ (by omega) (by omega)
  simp only [NumericCircularBuffer.evict, hs, hh, if_pos h0, hread, bind, Except.bind, hlo, hk,
    NumericCircularBuffer.evictTo]
  split
  · split
    · rw [rescanMax_eq ⟨cb.buffer, c, vs.length, _, _, _, _, _⟩ hc rfl _ _ _ hres]
      rfl
    · split
      · rw [rescanMin_eq ⟨cb.buffer, c, vs.length, _, _, _, _, _⟩ hc rfl _ _ _ hres]
        rfl
      · rfl
  · rfl

/-! ## Order facts on `F64` -/

theorem F64.le_refl_of_not_nan {a : F64} (h : a.IsNaN = false) : F64.le a a = true := by
  cases a <;> simp_all [F64.le, F64.IsNaN]

theorem F64.le_of_gt_eq_false {a b : F64} (ha : a.IsNaN = false) (hb : b.IsNaN = false)
    (h : F64.gt a b = false) : F64.le a b = true := by
  cases a <;> cases b <;> simp_all [F64.le, F64.gt, F64.lt, F64.IsNaN]

theorem F64.le_of_lt {a b : F64} (h : F64.lt a b = true) : F64.le a b = true := by
  cases a <;> cases b <;> simp_all [F64.le, F64.lt]
  exact h.le

theorem F64.le_trans {a b c : F64} (h1 : F64.le a b = true) (h2 : F64.le b c = true) :
    F64.le a c = true := by
  cases a <;> cases b <;> cases c <;> simp_all [F64.le]
  exact h1.trans h2

theorem F64.le_antisymm {a b : F64} (h1 : F64.le a b = true) (h2 : F64.le b a = true) :
    a = b := by
  cases a <;> cases b <;> simp_all [F64.le]
  exact h1.antisymm h2

theorem F64.le_pinf {a : F64} (h : a.IsNaN = false) : F64.le a .pinf = true := by
  cases a <;> simp_all [F64.le, F64.IsNaN]

theorem F64.ninf_le {a : F64} (h : a.IsNaN = false) : F64.le .ninf a = true := by
  cases a <;> simp_all [F64.le, F64.IsNaN]

/-! ## Exact maxima -/

theorem IsMaxOf_nil : IsMaxOf [] .ninf :=
  ⟨by simp, Or.inr ⟨by simp, rfl⟩⟩

theorem IsMaxOf.not_nan {xs : List F64} {m : F64} (h : IsMaxOf xs m) : m.IsNaN = false := by
  rcases h.2 with ⟨_, h⟩ | ⟨_, rfl⟩
  · exact h
  · rfl

theorem IsMaxOf.unique {xs : List F64} {m m1 : F64} (h : IsMaxOf xs m) (h1 : IsMaxOf xs m1) :
    m = m1 := by
  rcases h.2 with ⟨hm, hn⟩ | ⟨hall, rfl⟩
  · rcases h1.2 with ⟨hm1, hn1⟩ | ⟨hall1, rfl⟩
    · exact F64.le_antisymm (h1.1 m hm hn) (h.1 m1 hm1 hn1)
    · rw [hall1 m hm] at hn; cases hn
  · rcases h1.2 with ⟨hm1, hn1⟩ | ⟨_, rfl⟩
    · rw [hall m1 hm1] at hn1; cases hn1
    · rfl

theorem IsMaxOf_of_pinf_mem {xs : List F64} (h : F64.pinf ∈ xs) : IsMaxOf xs .pinf :=
  ⟨fun _ _ hx => F64.le_pinf hx, Or.inl ⟨h, rfl⟩⟩

theorem IsMaxOf_snoc_nan {xs : List F64} {m x : F64} (h : IsMaxOf xs m) (hx : x.IsNaN = true) :
    IsMaxOf (xs ++ [x]) m := by
  refine ⟨?_, ?_⟩
  · intro y hy hyn
    rcases List.mem_append.1 hy with hy | hy
    · exact h.1 y hy hyn
    · rw [List.mem_singleton.1 hy, hx] at hyn; cases hyn
  · rcases h.2 with ⟨hm, hn⟩ | ⟨hall, hm⟩
    · exact Or.inl ⟨List.mem_append_left _ hm, hn⟩
    · refine Or.inr ⟨?_, hm⟩
      intro y hy
      rcases List.mem_append.1 hy with hy | hy
      · exact hall y hy
      · rw [List.mem_singleton.1 hy]; exact hx

theorem IsMaxOf_snoc {xs : List F64} {m x : F64} (h : IsMaxOf xs m) (hx : x.IsNaN = false) :
    IsMaxOf (xs ++ [x]) (if F64.gt x m = true then x else m) := by
  have hmn := h.not_nan
  by_cases hg : F64.gt x m = true
  · rw [if_pos hg]
    refine ⟨?_, Or.inl ⟨by simp, hx⟩⟩
    intro y hy hyn
    rcases List.mem_append.1 hy with hy | hy
    · exact F64.le_trans (h.1 y hy hyn) (F64.le_of_lt hg)
    · rw [List.mem_singleton.1 hy]; exact F64.le_refl_of_not_nan hx
  · rw [if_neg hg]
    have hle : F64.le x m = true := F64.le_of_gt_eq_false hx hmn (by simpa using hg)
    refine ⟨?_, ?_⟩
    · intro y hy hyn
      rcases List.mem_append.1 hy with hy | hy
      · exact h.1 y hy hyn
      · rw [List.mem_singleton.1 hy]; exact hle
    · rcases h.2 with ⟨hm, hn⟩ | ⟨_, hm⟩
      · exact Or.inl ⟨List.mem_append_left _ hm, hn⟩
      · subst hm
        have : x = .ninf := F64.le_antisymm hle (F64.ninf_le hx)
        subst this
        exact Or.inl ⟨by simp, rfl⟩

theorem IsMaxOf_tail_of_nan {xs : List F64} {m x : F64} (h : IsMaxOf (x :: xs) m)
    (hx : x.IsNaN = true) : IsMaxOf xs m := by
  refine ⟨fun y hy hyn => h.1 y (List.mem_cons_of_mem _ hy) hyn, ?_⟩
  rcases h.2 with ⟨hm, hn⟩ | ⟨hall, hm⟩
  · rcases List.mem_cons.1 hm with rfl | hm
    · rw [hx] at hn; cases hn
    · exact Or.inl ⟨hm, hn⟩
  · exact Or.inr ⟨fun y hy => hall y (List.mem_cons_of_mem _ hy), hm⟩

theorem IsMaxOf_tail_of_not_ge {xs : List F64} {m x : F64} (h : IsMaxOf (x :: xs) m)
    (hx : x.IsNaN = false) (hge : F64.ge x m = false) : IsMaxOf xs m := by
  refine ⟨fun y hy hyn => h.1 y (List.mem_cons_of_mem _ hy) hyn, ?_⟩
  rcases h.2 with ⟨hm, hn⟩ | ⟨hall, _⟩
  · rcases List.mem_cons.1 hm with rfl | hm
    · rw [F64.ge, F64.le_refl_of_not_nan hx] at hge; cases hge
    · exact Or.inl ⟨hm, hn⟩
  · rw [hall x (by simp)] at hx; cases hx

theorem scanMax_spec (xs : List F64) :
    ∀ (ys : List F64) (m : F64), IsMaxOf ys m → IsMaxOf (ys ++ xs) (scanMax xs m) := by
  induction xs with
  | nil => intro ys m h; simpa [scanMax] using h
  | cons x xs ih =>
    intro ys m h
    have e : ys ++ x :: xs = (ys ++ [x]) ++ xs := by simp
    simp only [scanMax]
    split
    · rw [e]; exact ih _ _ (IsMaxOf_snoc_nan h ‹_›)
    · split
      · have hx : x = .pinf := by
          cases x <;> simp_all [F64.IsInf]
        subst hx
        exact IsMaxOf_of_pinf_mem (by simp)
      · have hx : x.IsNaN = false := by simpa using ‹¬ x.IsNaN = true›
        have hs := IsMaxOf_snoc h hx
        split
        · rw [e]; rw [if_pos ‹_›] at hs; exact ih _ _ hs
        · rw [e]; rw [if_neg ‹_›] at hs; exact ih _ _ hs

theorem scanMax_isMaxOf (xs : List F64) : IsMaxOf xs (scanMax xs (F64.Inf (-1))) := by
  simpa using scanMax_spec xs [] .ninf IsMaxOf_nil

/-! ## Reachable states of `NumericCircularBuffer` -/

theorem NumericCircularBuffer.evictTo_ring {T : Type} (cb : NumericCircularBuffer T)
    (oldVal : F64) (others : List F64) :
    (cb.evictTo oldVal others).buffer = cb.buffer ∧
      (cb.evictTo oldVal others).size = cb.size ∧
      (cb.evictTo oldVal others).head = cb.head := by
  unfold NumericCircularBuffer.evictTo
  split
  · dsimp only
    split
    · exact ⟨rfl, rfl, rfl⟩
    · split <;> exact ⟨rfl, rfl, rfl⟩
  · exact ⟨rfl, rfl, rfl⟩

theorem NumericCircularBuffer.insertTo_ring {T : Type} [Number T] (cb : NumericCircularBuffer T)
    (slot : Nat) (val : T) :
    (cb.insertTo slot val).buffer = cb.buffer.set slot val ∧
      (cb.insertTo slot val).size = cb.size ∧
      (cb.insertTo slot val).head = cb.head + 1 := by
  unfold NumericCircularBuffer.insertTo
  simp only
  split
  · split <;> split <;> exact ⟨rfl, rfl, rfl⟩
  · exact ⟨rfl, rfl, rfl⟩

theorem NumericCircularBuffer.insert_eq {T : Type} [Number T] (cb : NumericCircularBuffer T)
    (slot : Nat) (val : T) (h : slot < cb.buffer.length) :
    cb.insert (slot : Int) val = .ok (cb.insertTo slot val) := by
  simp only [NumericCircularBuffer.insert, goSetIndex_natCast _ _ _ h, bind, Except.bind]
  rfl

theorem NumericCircularBuffer.Reach_insertTo {T : Type} [Number T] {c : Nat} {vs : List T}
    {cb cb1 : NumericCircularBuffer T} (h : NumericCircularBuffer.Reach c vs cb) (hc : 0 < c)
    (hb : cb1.buffer = cb.buffer) (hs : cb1.size = cb.size) (hh : cb1.head = cb.head) (v : T) :
    NumericCircularBuffer.Reach c (vs ++ [v]) (cb1.insertTo (vs.length % c) v) := by
  obtain ⟨e1, e2, e3⟩ := cb1.insertTo_ring (vs.length % c) v
  refine ⟨by rw [e2, hs, h.1], ?_, ?_⟩
  · rw [e3, hh, h.2.1]; simp
  · rw [e1, hb]; exact RingInv_set hc h.2.2 v

theorem NumericCircularBuffer.Append_eq_of_lt {T : Type} [Number T] {c : Nat} {vs : List T}
    {cb : NumericCircularBuffer T} (h : NumericCircularBuffer.Reach c vs cb)
    (hn : vs.length < c) (v : T) :
    cb.Append v = .ok (cb.insertTo (vs.length % c) v) := by
  have hc : 0 < c := by omega
  have hm : vs.length % c < cb.buffer.length := by
    rw [h.2.2.1]; exact Nat.mod_lt _ hc
  simp only [NumericCircularBuffer.Append, h.1, h.2.1, goMod_natCast _ _ hc,
    NumericCircularBuffer.evict_eq_of_lt h hn, bind, Except.bind]
  exact cb.insert_eq _ v hm

theorem NumericCircularBuffer.Append_eq_of_le {T : Type} [Number T] {c : Nat} {vs : List T}
    {cb : NumericCircularBuffer T} (h : NumericCircularBuffer.Reach c vs cb) (hc : 0 < c)
    (hn : c ≤ vs.length) (old : T) (hold : vs[vs.length - c]? = some old) (v : T) :
    cb.Append v = .ok ((cb.evictTo (Number.float64 old)
      ((vs.drop (vs.length + 1 - c)).map Number.float64)).insertTo (vs.length % c) v) := by
  have hm : vs.length % c < cb.buffer.length := by
    rw [h.2.2.1]; exact Nat.mod_lt _ hc
  simp only [NumericCircularBuffer.Append, h.1, h.2.1, goMod_natCast _ _ hc,
    NumericCircularBuffer.evict_eq_of_le h hc hn old hold, bind, Except.bind]
  apply NumericCircularBuffer.insert_eq
  rw [(cb.evictTo_ring _ _).1]
  exact hm

theorem NumericCircularBuffer.AppendAll_induct {T : Type} [Number T]
    {P : List T → NumericCircularBuffer T → Prop}
    (hstep : ∀ vs cb v, P vs cb → ∃ cb1, cb.Append v = .ok cb1 ∧ P (vs ++ [v]) cb1)
    (ws : List T) :
    ∀ (vs : List T) (cb : NumericCircularBuffer T), P vs cb →
      ∃ cb1, cb.AppendAll ws = .ok cb1 ∧ P (vs ++ ws) cb1 := by
  induction ws with
  | nil =>
    intro vs cb h
    exact ⟨cb, rfl, by simpa using h⟩
  | cons w ws ih =>
    intro vs cb h
    obtain ⟨cb1, h1, hr1⟩ := hstep vs cb w h
    obtain ⟨cb2, h2, hr2⟩ := ih (vs ++ [w]) cb1 hr1
    refine ⟨cb2, ?_, by simpa using hr2⟩
    simp only [NumericCircularBuffer.AppendAll, List.foldlM_cons, h1] at h2 ⊢
    exact h2

theorem NewNumericCircularBuffer_natCast {T : Type} [Number T] (c : Nat) :
    NewNumericCircularBuffer (c : Int) =
      .ok ({ buffer := List.replicate c Number.zero, size := c, head := 0,
             count := .fin 0, sum := .fin 0, sqsum := .fin 0,
             min := .pinf, max := .ninf } : NumericCircularBuffer T) := by
  have h0 : ¬ ((c : Int) < 0) := by omega
  simp only [NewNumericCircularBuffer, goMake, if_neg h0, bind, Except.bind, Int.toNat_ofNat]
  rfl

theorem runNumeric_induct {T : Type} [Number T] {P : List T → NumericCircularBuffer T → Prop}
    (c : Nat)
    (hinit : P [] { buffer := List.replicate c Number.zero, size := c, head := 0,
                    count := .fin 0, sum := .fin 0, sqsum := .fin 0,
                    min := .pinf, max := .ninf })
    (hstep : ∀ vs cb v, P vs cb → ∃ cb1, cb.Append v = .ok cb1 ∧ P (vs ++ [v]) cb1)
    (vs : List T) : ∃ cb, runNumeric (c : Int) vs = .ok cb ∧ P vs cb := by
  obtain ⟨cb, h1, hr⟩ := NumericCircularBuffer.AppendAll_induct hstep vs [] _ hinit
  refine ⟨cb, ?_, by simpa using hr⟩
  simp only [runNumeric, NewNumericCircularBuffer_natCast]
  exact h1

/-! ## The window -/

theorem lastN_of_lt {α : Type} {c : Nat} {vs : List α} (h : vs.length < c) :
    lastN c vs = vs ∧ vs.drop (vs.length + 1 - c) = vs := by
  have e1 : vs.length - c = 0 := by omega
  have e2 : vs.length + 1 - c = 0 := by omega
  simp [lastN, e1, e2]

theorem lastN_of_le {α : Type} {c : Nat} {vs : List α} (h : c ≤ vs.length) (hc : 0 < c)
    {old : α} (hold : vs[vs.length - c]? = some old) :
    lastN c vs = old :: vs.drop (vs.length + 1 - c) := by
  have hlt : vs.length - c < vs.length := by omega
  have e : vs.length + 1 - c = vs.length - c + 1 := by omega
  rw [lastN, e, List.drop_eq_getElem_cons hlt]
  rw [List.getElem?_eq_getElem hlt] at hold
  simp only [Option.some.injEq] at hold
  rw [hold]

theorem lastN_snoc {α : Type} {c : Nat} (vs : List α) (v : α) (hc : 0 < c) :
    lastN c (vs ++ [v]) = vs.drop (vs.length + 1 - c) ++ [v] := by
  have hle : vs.length + 1 - c ≤ vs.length := by omega
  simp only [lastN, List.length_append, List.length_singleton]
  rw [List.drop_append_of_le_length hle]

theorem lastN_length {α : Type} (c : Nat) (vs : List α) :
    (lastN c vs).length = min vs.length c := by
  simp only [lastN, List.length_drop]
  omega

/-! ## The maximum is exact -/

theorem NumericCircularBuffer.evictTo_max {T : Type} (cb : NumericCircularBuffer T)
    (oldVal : F64) (others : List F64) (h : IsMaxOf (oldVal :: others) cb.max) :
    IsMaxOf others (cb.evictTo oldVal others).max := by
  unfold NumericCircularBuffer.evictTo
  split
  · have hx : oldVal.IsNaN = false := by simpa using ‹(!oldVal.IsNaN) = true›
    dsimp only
    split
    · exact scanMax_isMaxOf others
    · have hge : F64.ge oldVal cb.max = false := by
        have := ‹¬ (F64.IsInf oldVal 1 || F64.ge oldVal cb.max) = true›
        simp only [Bool.or_eq_true, not_or, Bool.not_eq_true] at this
        exact this.2
      split <;> exact IsMaxOf_tail_of_not_ge h hx hge
  · have hx : oldVal.IsNaN = true := by simpa using ‹¬ (!oldVal.IsNaN) = true›
    exact IsMaxOf_tail_of_nan h hx

theorem NumericCircularBuffer.insertTo_max {T : Type} [Number T] (cb : NumericCircularBuffer T)
    (slot : Nat) (val : T) (xs : List F64) (h : IsMaxOf xs cb.max) :
    IsMaxOf (xs ++ [Number.float64 val]) (cb.insertTo slot val).max := by
  unfold NumericCircularBuffer.insertTo
  dsimp only
  split
  · have hx : (Number.float64 val).IsNaN = false := by
      simpa using ‹(!(Number.float64 val).IsNaN) = true›
    have hs := IsMaxOf_snoc h hx
    split
    · rw [if_pos ‹_›] at hs
      split <;> exact hs
    · rw [if_neg ‹_›] at hs
      split <;> exact hs
  · have hx : (Number.float64 val).IsNaN = true := by
      simpa using ‹¬ (!(Number.float64 val).IsNaN) = true›
    exact IsMaxOf_snoc_nan h hx

theorem NumericCircularBuffer.Append_max {T : Type} [Number T] {c : Nat} (hc : 0 < c)
    (vs : List T) (cb : NumericCircularBuffer T) (v : T)
    (h : NumericCircularBuffer.Reach c vs cb ∧ IsMaxOf ((lastN c vs).map Number.float64) cb.max) :
    ∃ cb1, cb.Append v = .ok cb1 ∧ (NumericCircularBuffer.Reach c (vs ++ [v]) cb1 ∧
      IsMaxOf ((lastN c (vs ++ [v])).map Number.float64) cb1.max) := by
  obtain ⟨hr, hmax⟩ := h
  rw [lastN_snoc vs v hc, List.map_append, List.map_singleton]
  by_cases hn : vs.length < c
  · refine ⟨_, NumericCircularBuffer.Append_eq_of_lt hr hn v,
      NumericCircularBuffer.Reach_insertTo hr hc rfl rfl rfl v, ?_⟩
    rw [(lastN_of_lt hn).1] at hmax
    rw [(lastN_of_lt hn).2]
    exact cb.insertTo_max _ v _ hmax
  · have hle : c ≤ vs.length := by omega
    have hlt : vs.length - c < vs.length := by omega
    have hold : vs[vs.length - c]? = some vs[vs.length - c] := List.getElem?_eq_getElem hlt
    obtain ⟨e1, e2, e3⟩ := cb.evictTo_ring (Number.float64 vs[vs.length - c])
      ((vs.drop (vs.length + 1 - c)).map Number.float64)
    refine ⟨_, NumericCircularBuffer.Append_eq_of_le hr hc hle _ hold v,
      NumericCircularBuffer.Reach_insertTo hr hc e1 e2 e3 v, ?_⟩
    rw [lastN_of_le hle hc hold, List.map_cons] at hmax
    exact NumericCircularBuffer.insertTo_max _ _ v _ (cb.evictTo_max _ _ hmax)

theorem runNumeric_max {T : Type} [Number T] {c : Nat} (hc : 0 < c) (vs : List T) :
    ∃ cb, runNumeric (c : Int) vs = .ok cb ∧ (NumericCircularBuffer.Reach c vs cb ∧
      IsMaxOf ((lastN c vs).map Number.float64) cb.max) := by
  apply runNumeric_induct c
  · exact ⟨⟨rfl, rfl, RingInv_replicate c Number.zero⟩, by simpa [lastN] using IsMaxOf_nil⟩
  · exact fun vs cb v h => NumericCircularBuffer.Append_max hc vs cb v h

/-! ## The additive aggregates on finite values -/

theorem F64.sub_fin (a b : ℚ) : F64.sub (.fin a) (.fin b) = .fin (a - b) := by
  simp [F64.sub, F64.add, F64.neg, sub_eq_add_neg]

theorem F64.add_fin (a b : ℚ) : F64.add (.fin a) (.fin b) = .fin (a + b) := rfl

theorem F64.mul_fin (a b : ℚ) : F64.mul (.fin a) (.fin b) = .fin (a * b) := rfl

theorem NumericCircularBuffer.evictTo_agg {T : Type} (cb : NumericCircularBuffer T)
    (q : ℚ) (others : List F64) :
    (cb.evictTo (.fin q) others).count = F64.sub cb.count (.fin 1) ∧
      (cb.evictTo (.fin q) others).sum = F64.sub cb.sum (.fin q) ∧
      (cb.evictTo (.fin q) others).sqsum = F64.sub cb.sqsum (.fin (q * q)) := by
  unfold NumericCircularBuffer.evictTo
  rw [if_pos (by rfl)]
  dsimp only
  split
  · exact ⟨rfl, rfl, rfl⟩
  · split <;> exact ⟨rfl, rfl, rfl⟩

theorem NumericCircularBuffer.insertTo_agg {T : Type} [Number T] (cb : NumericCircularBuffer T)
    (slot : Nat) (val : T) (q : ℚ) (hq : Number.float64 val = .fin q) :
    (cb.insertTo slot val).count = F64.add cb.count (.fin 1) ∧
      (cb.insertTo slot val).sum = F64.add cb.sum (.fin q) ∧
      (cb.insertTo slot val).sqsum = F64.add cb.sqsum (.fin (q * q)) := by
  unfold NumericCircularBuffer.insertTo
  rw [hq]
  dsimp only
  rw [if_pos (by rfl)]
  split <;> split <;> exact ⟨rfl, rfl, rfl⟩

theorem NumericCircularBuffer.Append_agg {T : Type} [Number T] {c : Nat} (hc : 0 < c)
    (f : T → ℚ) (hf : ∀ v, Number.float64 v = .fin (f v))
    (vs : List T) (cb : NumericCircularBuffer T) (v : T)
    (h : NumericCircularBuffer.Reach c vs cb ∧
      cb.count = .fin ((lastN c vs).length : ℚ) ∧
      cb.sum = .fin ((lastN c vs).map f).sum ∧
      cb.sqsum = .fin ((lastN c vs).map fun x => f x * f x).sum) :
    ∃ cb1, cb.Append v = .ok cb1 ∧ (NumericCircularBuffer.Reach c (vs ++ [v]) cb1 ∧
      cb1.count = .fin ((lastN c (vs ++ [v])).length : ℚ) ∧
      cb1.sum = .fin ((lastN c (vs ++ [v])).map f).sum ∧
      cb1.sqsum = .fin ((lastN c (vs ++ [v])).map fun x => f x * f x).sum) := by
  obtain ⟨hr, hcount, hsum, hsq⟩ := h
  rw [lastN_snoc vs v hc]
  by_cases hn : vs.length < c
  · obtain ⟨a1, a2, a3⟩ := cb.insertTo_agg (vs.length % c) v (f v) (hf v)
    refine ⟨_, NumericCircularBuffer.Append_eq_of_lt hr hn v,
      NumericCircularBuffer.Reach_insertTo hr hc rfl rfl rfl v, ?_, ?_, ?_⟩
    · rw [a1, hcount, (lastN_of_lt hn).1, (lastN_of_lt hn).2, F64.add_fin]
      simp
    · rw [a2, hsum, (lastN_of_lt hn).1, (lastN_of_lt hn).2, F64.add_fin]
      simp
    · rw [a3, hsq, (lastN_of_lt hn).1, (lastN_of_lt hn).2, F64.add_fin]
      simp
  · have hle : c ≤ vs.length := by omega
    have hlt : vs.length - c < vs.length := by omega
    have hold : vs[vs.length - c]? = some vs[vs.length - c] := List.getElem?_eq_getElem hlt
    have hA := NumericCircularBuffer.Append_eq_of_le hr hc hle _ hold v
    rw [hf] at hA
    obtain ⟨e1, e2, e3⟩ := cb.evictTo_ring (.fin (f vs[vs.length - c]))
      ((vs.drop (vs.length + 1 - c)).map Number.float64)
    obtain ⟨b1, b2, b3⟩ := cb.evictTo_agg (f vs[vs.length - c])
      ((vs.drop (vs.length + 1 - c)).map Number.float64)
    obtain ⟨a1, a2, a3⟩ := NumericCircularBuffer.insertTo_agg
      (cb.evictTo (.fin (f vs[vs.length - c]))
        ((vs.drop (vs.length + 1 - c)).map Number.float64)) (vs.length % c) v (f v) (hf v)
    rw [lastN_of_le hle hc hold] at hcount hsum hsq
    refine ⟨_, hA, NumericCircularBuffer.Reach_insertTo hr hc e1 e2 e3 v, ?_, ?_, ?_⟩
    · rw [a1, b1, hcount, F64.sub_fin, F64.add_fin]
      simp
    · rw [a2, b2, hsum, F64.sub_fin, F64.add_fin]
      simp
    · rw [a3, b3, hsq, F64.sub_fin, F64.add_fin]
      simp

theorem runNumeric_agg {T : Type} [Number T] {c : Nat} (hc : 0 < c)
    (f : T → ℚ) (hf : ∀ v, Number.float64 v = .fin (f v)) (vs : List T) :
    ∃ cb, runNumeric (c : Int) vs = .ok cb ∧ (NumericCircularBuffer.Reach c vs cb ∧
      cb.count = .fin ((lastN c vs).length : ℚ) ∧
      cb.sum = .fin ((lastN c vs).map f).sum ∧
      cb.sqsum = .fin ((lastN c vs).map fun x => f x * f x).sum) := by
  apply runNumeric_induct c
  · exact ⟨⟨rfl, rfl, RingInv_replicate c Number.zero⟩, by simp [lastN], by simp [lastN],
      by simp [lastN]⟩
  · exact fun vs cb v h => NumericCircularBuffer.Append_agg hc f hf vs cb v h

/-! ## `Get` on reachable states of `NumericCircularBuffer` -/

theorem NumericCircularBuffer.Get_reach_numeric {T : Type} [Number T] {c : Nat} {vs : List T}
    {cb : NumericCircularBuffer T} (h : NumericCircularBuffer.Reach c vs cb) (hc : 0 < c)
    (idx : Int) :
    (idx < 0 ∨ idx ≥ vs.length ∨ idx < (vs.length : Int) - c →
      cb.Get idx = .ok (Number.zero, some .ErrIndexOutOfRange)) ∧
    (¬ (idx < 0 ∨ idx ≥ vs.length ∨ idx < (vs.length : Int) - c) →
      ∃ v, vs[idx.toNat]? = some v ∧ cb.Get idx = .ok (v, none)) := by
  obtain ⟨hs, hh, hr⟩ := h
  constructor
  · intro hout
    simp [NumericCircularBuffer.Get, hs, hh, hout, pure, Except.pure]
  · intro hin
    obtain ⟨i, rfl⟩ := Int.eq_ofNat_of_zero_le (show 0 ≤ idx by omega)
    obtain ⟨v, hv, hread⟩ := ring_read hr i (by omega) (by omega)
    refine ⟨v, by simpa using hv, ?_⟩
    simp only [NumericCircularBuffer.Get, hs, hh, if_neg hin, goMod_natCast _ _ hc, hread,
      bind, Except.bind]
    rfl

/-! ## Not-a-number samples -/

theorem NumericCircularBuffer.evictTo_nan {T : Type} (cb : NumericCircularBuffer T)
    (oldVal : F64) (others : List F64) (h : oldVal.IsNaN = true) :
    cb.evictTo oldVal others = cb := by
  simp [NumericCircularBuffer.evictTo, h]

theorem NumericCircularBuffer.insertTo_nan {T : Type} [Number T] (cb : NumericCircularBuffer T)
    (slot : Nat) (val : T) (h : (Number.float64 val).IsNaN = true) :
    cb.insertTo slot val = { cb with buffer := cb.buffer.set slot val, head := cb.head + 1 } := by
  simp [NumericCircularBuffer.insertTo, h]

/-! ## Success of `Get` -/

theorem get_succeeds_iff_aux {α : Type} {g : Except Panic (α × Option GoError)} {z : α}
    {vs : List α} {c : Nat} {i : Int}
    (h1 : i < 0 ∨ i ≥ vs.length ∨ i < (vs.length : Int) - c →
      g = .ok (z, some .ErrIndexOutOfRange))
    (h2 : ¬ (i < 0 ∨ i ≥ vs.length ∨ i < (vs.length : Int) - c) →
      ∃ v, vs[i.toNat]? = some v ∧ g = .ok (v, none)) :
    ((∃ v, g = .ok (v, none)) ↔ (0 ≤ i ∧ (vs.length : Int) - c ≤ i ∧ i < vs.length)) ∧
      (∀ v, g = .ok (v, none) → vs[i.toNat]? = some v) := by
  by_cases hout : i < 0 ∨ i ≥ vs.length ∨ i < (vs.length : Int) - c
  · have e := h1 hout
    constructor
    · constructor
      · rintro ⟨v, hv⟩
        rw [e] at hv
        cases hv
      · intro hin
        omega
    · intro v hv
      rw [e] at hv
      cases hv
  · obtain ⟨w, hw, e⟩ := h2 hout
    constructor
    · constructor
      · intro _
        omega
      · intro _
        exact ⟨w, e⟩
    · intro v hv
      rw [e] at hv
      cases hv
      exact hw

/-! ## The window after a full turn -/

theorem lastN_append_of_length {α : Type} (xs ys : List α) :
    lastN ys.length (xs ++ ys) = ys := by
  have e : (xs ++ ys).length - ys.length = xs.length := by simp
  rw [lastN, e, List.drop_left]

theorem map_float64_F64 (xs : List F64) : xs.map Number.float64 = xs := by
  induction xs with
  | nil => rfl
  | cons x xs ih => rw [List.map_cons, ih]; rfl

/-! ## The claims -/

/-- C1 (the code departs from the claim). With capacity 3, after `Append` of
5, 1, 4, 9 the last three appended values are `[1, 4, 9]`, but `Slice` of the
`CircularBuffer` and of the `NumericCircularBuffer` both return `[9, 9, 1]`. -/
theorem Slice_after_wrap_around :
    (runCircular 3 [5, 1, 4, 9] >>= fun cb => cb.Slice) = .ok ([9, 9, 1] : List Int) ∧
    (runNumeric 3 [5, 1, 4, 9] >>= fun cb => cb.Slice) = .ok ([9, 9, 1] : List Int) ∧
    lastN 3 ([5, 1, 4, 9] : List Int) = [1, 4, 9] := by
  decide

/-- C2. For every capacity `c ≥ 1`, every sequence `vs` of appends and every
integer `idx`, `Get(idx)` returns the zero value with `ErrIndexOutOfRange` when
`idx < 0` or `idx ≥ head` or `idx < head - c`, and otherwise returns the
`idx`-th appended value with a nil error (`head` being the number of appends). -/
theorem Get_contract (α : Type) [Inhabited α] (c : Nat) (hc : 1 ≤ c) (vs : List α) (idx : Int) :
    ∃ cb, runCircular (c : Int) vs = .ok cb ∧ cb.head = (vs.length : Int) ∧
      (idx < 0 ∨ idx ≥ vs.length ∨ idx < (vs.length : Int) - c →
        cb.Get idx = .ok (default, some .ErrIndexOutOfRange)) ∧
      (¬ (idx < 0 ∨ idx ≥ vs.length ∨ idx < (vs.length : Int) - c) →
        ∃ v, vs[idx.toNat]? = some v ∧ cb.Get idx = .ok (v, none)) := by
  obtain ⟨cb, hrun, hr⟩ := runCircular_reach (show 0 < c by omega) vs
  exact ⟨cb, hrun, hr.2.1, CircularBuffer.Get_reach hr (by omega) idx⟩

/-- Witness of C2: on a fresh buffer of capacity 3, `Get(-1)` and `Get(100)`
both fail with `ErrIndexOutOfRange`. -/
theorem Get_contract_witness :
    1 ≤ 3 ∧
    (runCircular 3 ([] : List Int) >>= fun cb => cb.Get (-1))
      = .ok (0, some .ErrIndexOutOfRange) ∧
    (runCircular 3 ([] : List Int) >>= fun cb => cb.Get 100)
      = .ok (0, some .ErrIndexOutOfRange) := by
  obtain ⟨cb, h, _, hout, _⟩ := Get_contract Int 3 (by decide) [] (-1)
  obtain ⟨cb1, h1, _, hout1, _⟩ := Get_contract Int 3 (by decide) [] 100
  have e : runCircular 3 ([] : List Int) = .ok cb := h
  have e1 : runCircular 3 ([] : List Int) = .ok cb1 := h1
  refine ⟨by decide, ?_, ?_⟩
  · rw [e]; exact hout (Or.inl (by decide))
  · rw [e1]; exact hout1 (Or.inr (Or.inl (by decide)))

/-- C3. For every capacity `c ≥ 1` and every sequence `vs` of appends to a
`NumericCircularBuffer`, the appends return normally and `Max()` is the exact
maximum of the values that are not not-a-number among the last `min(n, c)`
appended values, and is minus infinity when there is no such value. -/
theorem Max_exact (T : Type) [Number T] (c : Nat) (hc : 1 ≤ c) (vs : List T) :
    ∃ cb, runNumeric (c : Int) vs = .ok cb ∧
      (lastN c vs).length = min vs.length c ∧
      IsMaxOf ((lastN c vs).map Number.float64) cb.Max ∧
      ((∀ v ∈ lastN c vs, (Number.float64 v).IsNaN = true) → cb.Max = .ninf) := by
  obtain ⟨cb, hrun, _, hmax⟩ := runNumeric_max (show 0 < c by omega) vs
  refine ⟨cb, hrun, lastN_length c vs, hmax, ?_⟩
  intro hall
  rcases hmax.2 with ⟨hm, hn⟩ | ⟨_, h⟩
  · obtain ⟨v, hv, e⟩ := List.mem_map.1 hm
    have hv2 := hall v hv
    rw [e, hn] at hv2
    cases hv2
  · exact h

/-- Witness of C3: capacity 3, `Append` of 5, 1, 4, 9 gives `Max() = 9`. -/
theorem Max_exact_witness :
    1 ≤ 3 ∧ ∃ cb, runNumeric 3 [(5 : Int), 1, 4, 9] = .ok cb ∧ cb.Max = .fin 9 := by
  obtain ⟨cb, h, _, hmax, _⟩ := Max_exact Int 3 (by decide) [5, 1, 4, 9]
  refine ⟨by decide, cb, h, ?_⟩
  have h9 : IsMaxOf ((lastN 3 [(5 : Int), 1, 4, 9]).map Number.float64) (.fin 9) := by decide
  exact hmax.unique h9

/-- C4 (the code departs from the claim). With capacity 1, after `Append` of
3 and 5 the window holds only 5, whose exact minimum is 5, but `Min()` is 3:
the eviction of 3 takes the branch that recomputes the maximum and skips the
one that recomputes the minimum. -/
theorem Min_stale_after_eviction :
    (runNumeric 1 [(3 : Int), 5]).map (fun cb => cb.Min) = .ok (.fin 3) ∧
    IsMinOf ((lastN 1 [(3 : Int), 5]).map Number.float64) (.fin 5) ∧
    ¬ IsMinOf ((lastN 1 [(3 : Int), 5]).map Number.float64) (.fin 3) := by
  decide

/-- C5. For every capacity `c ≥ 1` and every sequence `vs` of `n` appends of
integer values, the appends return normally and afterwards the field `count`
is `min(n, c)`, `Sum()` is the sum of the last `min(n, c)` appended values and
the field `sqsum` is the sum of their squares. -/
theorem additive_aggregates_exact (c : Nat) (hc : 1 ≤ c) (vs : List Int) :
    ∃ cb, runNumeric (c : Int) vs = .ok cb ∧
      cb.count = .fin ((min vs.length c : Nat) : ℚ) ∧
      cb.Sum = .fin (((lastN c vs).sum : Int) : ℚ) ∧
      cb.sqsum = .fin ((((lastN c vs).map fun v => v * v).sum : Int) : ℚ) := by
  obtain ⟨cb, hrun, _, hcount, hsum, hsq⟩ :=
    runNumeric_agg (show 0 < c by omega) (fun v : Int => (v : ℚ)) (fun _ => rfl) vs
  refine ⟨cb, hrun, ?_, ?_, ?_⟩
  · rw [hcount, lastN_length]
  · rw [NumericCircularBuffer.Sum, hsum, Int.cast_list_sum]
  · rw [hsq, Int.cast_list_sum, List.map_map]
    congr 2
    apply List.map_congr_left
    intro v _
    simp

/-- Witness of C5: capacity 3, `Append` of 5, 1, 4, 9 gives count 3, sum 14 and
sum of squares 98. -/
theorem additive_aggregates_exact_witness :
    1 ≤ 3 ∧ ∃ cb, runNumeric 3 [(5 : Int), 1, 4, 9] = .ok cb ∧
      cb.count = .fin 3 ∧ cb.Sum = .fin 14 ∧ cb.sqsum = .fin 98 := by
  obtain ⟨cb, h, h1, h2, h3⟩ := additive_aggregates_exact 3 (by decide) [5, 1, 4, 9]
  refine ⟨by decide, cb, h, ?_, ?_, ?_⟩
  · rw [h1]; with_unfolding_all decide
  · rw [h2]; with_unfolding_all decide
  · rw [h3]; with_unfolding_all decide

/-- C6 (the code departs from the claim). With capacity 3, after `Append` of
5, 1, 4, 9 the maintained count, sum and sum of squares are 3, 14 and 98,
while `Slice()` returns `[9, 9, 1]`, whose sum is 19 and sum of squares 163;
and with capacity 1, after `Append` of 3 and 5, `Slice()` is `[5]` while
`Min()` is 3. -/
theorem aggregates_differ_from_Slice :
    (runNumeric 3 [(5 : Int), 1, 4, 9] >>= fun cb => cb.Slice) = .ok [9, 9, 1] ∧
    (runNumeric 3 [(5 : Int), 1, 4, 9]).map (fun cb => (cb.count, cb.Sum, cb.sqsum))
      = .ok (.fin 3, .fin 14, .fin 98) ∧
    ([9, 9, 1] : List Int).sum = 19 ∧
    (([9, 9, 1] : List Int).map fun v => v * v).sum = 163 ∧
    (runNumeric 1 [(3 : Int), 5] >>= fun cb => cb.Slice) = .ok [5] ∧
    (runNumeric 1 [(3 : Int), 5]).map (fun cb => cb.Min) = .ok (.fin 3) := by
  with_unfolding_all decide

/-- C7 (counterexample). With capacity 1 and the sample 5 resident,
`Append(NaN)` evicts the 5: `count`, `sum` and `sqsum` fall from 1, 5 and 25 to
0 and `max` goes from 5 to minus infinity. -/
theorem Append_NaN_changes_aggregates :
    (runNumeric 1 [F64.fin 5]).map
        (fun cb => (cb.count, cb.sum, cb.sqsum, cb.min, cb.max))
      = .ok (.fin 1, .fin 5, .fin 25, .fin 5, .fin 5) ∧
    (runNumeric 1 [F64.fin 5] >>= fun cb => cb.Append F64.nan).map
        (fun cb => (cb.count, cb.sum, cb.sqsum, cb.min, cb.max))
      = .ok (.fin 0, .fin 0, .fin 0, .fin 5, .ninf) := by
  with_unfolding_all decide

/-- C7 (amended). For every capacity `c ≥ 1` and every sequence `vs` of appends
to a `NumericCircularBuffer` of `float64`, when the window is not yet full or
the sample about to be overwritten is not-a-number, `Append(NaN)` returns
normally and leaves `count`, `sum`, `sqsum`, `min` and `max` unchanged. -/
theorem Append_NaN_without_eviction (c : Nat) (hc : 1 ≤ c) (vs : List F64)
    (h : vs.length < c ∨ vs[vs.length - c]? = some F64.nan) :
    ∃ cb cb1, runNumeric (c : Int) vs = .ok cb ∧ cb.Append F64.nan = .ok cb1 ∧
      cb1.count = cb.count ∧ cb1.sum = cb.sum ∧ cb1.sqsum = cb.sqsum ∧
      cb1.min = cb.min ∧ cb1.max = cb.max := by
  have hc0 : 0 < c := by omega
  obtain ⟨cb, hrun, hr, _⟩ := runNumeric_max hc0 vs
  by_cases hn : vs.length < c
  · refine ⟨cb, _, hrun, NumericCircularBuffer.Append_eq_of_lt hr hn F64.nan, ?_⟩
    have hnan : (Number.float64 F64.nan).IsNaN = true := by rfl
    rw [cb.insertTo_nan _ F64.nan hnan]
    exact ⟨rfl, rfl, rfl, rfl, rfl⟩
  · have hold : vs[vs.length - c]? = some F64.nan := by
      rcases h with h | h
      · exact absurd h hn
      · exact h
    refine ⟨cb, _, hrun,
      NumericCircularBuffer.Append_eq_of_le hr hc0 (by omega) F64.nan hold F64.nan, ?_⟩
    have hnan : (Number.float64 F64.nan).IsNaN = true := by rfl
    rw [cb.evictTo_nan _ _ hnan, cb.insertTo_nan _ F64.nan hnan]
    exact ⟨rfl, rfl, rfl, rfl, rfl⟩

/-- Witness of C7 (amended): capacity 3 with the single sample 5 resident. -/
theorem Append_NaN_without_eviction_witness :
    (1 ≤ 3 ∧ ([F64.fin 5].length < 3 ∨
        [F64.fin 5][[F64.fin 5].length - 3]? = some F64.nan)) ∧
    ∃ cb cb1, runNumeric 3 [F64.fin 5] = .ok cb ∧ cb.Append F64.nan = .ok cb1 ∧
      cb1.count = cb.count ∧ cb1.sum = cb.sum ∧ cb1.sqsum = cb.sqsum ∧
      cb1.min = cb.min ∧ cb1.max = cb.max :=
  ⟨⟨by decide, Or.inl (by decide)⟩,
    Append_NaN_without_eviction 3 (by decide) [F64.fin 5] (Or.inl (by decide))⟩

/-- C8 (counterexample). `NewCircularBuffer(0)` and `NewNumericCircularBuffer(0)`
do not fail: each returns an instance with an empty buffer. -/
theorem New_accepts_size_zero :
    (NewCircularBuffer 0 : Except Panic (CircularBuffer Int))
      = .ok { buffer := [], size := 0, head := 0 } ∧
    (NewNumericCircularBuffer 0 : Except Panic (NumericCircularBuffer Int))
      = .ok { buffer := [], size := 0, head := 0, count := .fin 0, sum := .fin 0,
              sqsum := .fin 0, min := .pinf, max := .ninf } := by
  with_unfolding_all decide

/-- C8 (amended). For every `size < 0` both constructors panic at construction,
in `make`; for `size = 0` both return an instance with an empty buffer, and
every `Append` on that instance panics with a division by zero. -/
theorem New_rejects_negative_size_only (α : Type) [Inhabited α] (T : Type) [Number T]
    (size : Int) (h : size ≤ 0) :
    (NewCircularBuffer size : Except Panic (CircularBuffer α))
      = (if size = 0 then .ok { buffer := [], size := 0, head := 0 }
         else .error .makesliceLenOutOfRange) ∧
    (NewNumericCircularBuffer size : Except Panic (NumericCircularBuffer T))
      = (if size = 0 then
           .ok { buffer := [], size := 0, head := 0, count := .fin 0, sum := .fin 0,
                 sqsum := .fin 0, min := .pinf, max := .ninf }
         else .error .makesliceLenOutOfRange) ∧
    (∀ val : α, ({ buffer := [], size := 0, head := 0 } : CircularBuffer α).Append val
      = .error .divideByZero) ∧
    (∀ val : T, ({ buffer := [], size := 0, head := 0, count := .fin 0, sum := .fin 0,
                   sqsum := .fin 0, min := .pinf, max := .ninf } :
        NumericCircularBuffer T).Append val = .error .divideByZero) := by
  refine ⟨?_, ?_, fun _ => rfl, fun _ => rfl⟩
  · by_cases h0 : size = 0
    · subst h0; rfl
    · have hlt : size < 0 := by omega
      simp only [NewCircularBuffer, goMake, if_pos hlt, if_neg h0]
      rfl
  · by_cases h0 : size = 0
    · subst h0; rfl
    · have hlt : size < 0 := by omega
      simp only [NewNumericCircularBuffer, goMake, if_pos hlt, if_neg h0]
      rfl

/-- Witness of C8 (amended): `size = -1` panics in both constructors. -/
theorem New_rejects_negative_size_only_witness :
    (-1 : Int) ≤ 0 ∧
    (NewCircularBuffer (-1) : Except Panic (CircularBuffer Int))
      = .error .makesliceLenOutOfRange ∧
    (NewNumericCircularBuffer (-1) : Except Panic (NumericCircularBuffer Int))
      = .error .makesliceLenOutOfRange := by
  obtain ⟨h1, h2, _, _⟩ := New_rejects_negative_size_only Int Int (-1) (by decide)
  exact ⟨by decide, h1, h2⟩

/-- C9 (counterexample). On a fresh buffer of capacity 3 the index `-1` lies
in `head - c ≤ i < head`, yet `Get(-1)` does not succeed. -/
theorem Get_negative_index_fails :
    ¬ ((∃ v, (runCircular 3 ([] : List Int) >>= fun cb => cb.Get (-1)) = .ok (v, none)) ↔
        ((0 : Int) - 3 ≤ -1 ∧ (-1 : Int) < 0)) := by
  intro h
  obtain ⟨v, hv⟩ := h.2 ⟨by decide, by decide⟩
  have e : (runCircular 3 ([] : List Int) >>= fun cb => cb.Get (-1))
      = .ok (0, some .ErrIndexOutOfRange) := by decide
  rw [e] at hv
  cases hv

/-- C9 (amended). For every capacity `c ≥ 1`, every sequence `vs` of appends to
a `CircularBuffer` or a `NumericCircularBuffer` (`head` being their number) and
every integer `i`, `Get(i)` returns a nil error if and only if `0 ≤ i` and
`head - c ≤ i < head`, and the value it then returns is the `i`-th appended
value. -/
theorem Get_succeeds_iff (T : Type) [Inhabited T] [Number T] (c : Nat) (hc : 1 ≤ c)
    (vs : List T) (i : Int) :
    ∃ cb ncb, runCircular (c : Int) vs = .ok cb ∧ runNumeric (c : Int) vs = .ok ncb ∧
      cb.head = (vs.length : Int) ∧ ncb.head = (vs.length : Int) ∧
      ((∃ v, cb.Get i = .ok (v, none)) ↔
        (0 ≤ i ∧ (vs.length : Int) - c ≤ i ∧ i < vs.length)) ∧
      (∀ v, cb.Get i = .ok (v, none) → vs[i.toNat]? = some v) ∧
      ((∃ v, ncb.Get i = .ok (v, none)) ↔
        (0 ≤ i ∧ (vs.length : Int) - c ≤ i ∧ i < vs.length)) ∧
      (∀ v, ncb.Get i = .ok (v, none) → vs[i.toNat]? = some v) := by
  have hc0 : 0 < c := by omega
  obtain ⟨cb, hrun, hr⟩ := runCircular_reach hc0 vs
  obtain ⟨ncb, hnrun, hnr, _⟩ := runNumeric_max hc0 vs
  obtain ⟨a1, a2⟩ := CircularBuffer.Get_reach hr hc0 i
  obtain ⟨b1, b2⟩ := NumericCircularBuffer.Get_reach_numeric hnr hc0 i
  obtain ⟨p1, p2⟩ := get_succeeds_iff_aux a1 a2
  obtain ⟨q1, q2⟩ := get_succeeds_iff_aux b1 b2
  exact ⟨cb, ncb, hrun, hnrun, hr.2.1, hnr.2.1, p1, p2, q1, q2⟩

/-- Witness of C9 (amended): capacity 3 after `Append` of 5, 1, 4, 9; `Get(1)`
returns the appended value 1 and `Get(0)`, whose sample was evicted, fails. -/
theorem Get_succeeds_iff_witness :
    1 ≤ 3 ∧
    (∃ cb, runCircular 3 [(5 : Int), 1, 4, 9] = .ok cb ∧
      (∃ v, cb.Get 1 = .ok (v, none)) ∧ (∀ v, cb.Get 1 = .ok (v, none) → v = 1)) ∧
    (∃ cb, runCircular 3 [(5 : Int), 1, 4, 9] = .ok cb ∧
      ¬ ∃ v, cb.Get 0 = .ok (v, none)) := by
  obtain ⟨cb, _, h, _, _, _, p1, p2, _, _⟩ :=
    Get_succeeds_iff Int 3 (by decide) [5, 1, 4, 9] 1
  obtain ⟨cb0, _, h0, _, _, _, r1, _, _, _⟩ :=
    Get_succeeds_iff Int 3 (by decide) [5, 1, 4, 9] 0
  refine ⟨by decide, ⟨cb, h, p1.2 (by decide), ?_⟩, ⟨cb0, h0, ?_⟩⟩
  · intro v hv
    have := p2 v hv
    simpa using this.symm
  · intro hex
    have := r1.1 hex
    revert this
    decide

/-- C10. In a `NumericCircularBuffer` of `float64` of capacity `c ≥ 1`, right
after `Append(+Inf)` `Max()` is plus infinity; and after the `c - 1` further
appends `ws` and the append `v` that evicts that sample, the window is
`ws ++ [v]` and `Max()` is the exact maximum of its values that are not
not-a-number, minus infinity if there is none. -/
theorem Inf_handling (c : Nat) (vs ws : List F64) (v : F64) (hw : ws.length + 1 = c) :
    (∃ cb, runNumeric (c : Int) (vs ++ [F64.pinf]) = .ok cb ∧ cb.Max = .pinf) ∧
    (∃ cb, runNumeric (c : Int) (vs ++ [F64.pinf] ++ ws ++ [v]) = .ok cb ∧
      lastN c (vs ++ [F64.pinf] ++ ws ++ [v]) = ws ++ [v] ∧
      IsMaxOf (ws ++ [v]) cb.Max) := by
  have hc0 : 0 < c := by omega
  constructor
  · obtain ⟨cb, hrun, _, hmax⟩ := runNumeric_max hc0 (vs ++ [F64.pinf])
    refine ⟨cb, hrun, ?_⟩
    rw [map_float64_F64, lastN_snoc vs F64.pinf hc0] at hmax
    exact hmax.unique (IsMaxOf_of_pinf_mem (by simp))
  · obtain ⟨cb, hrun, _, hmax⟩ := runNumeric_max hc0 (vs ++ [F64.pinf] ++ ws ++ [v])
    have hl : lastN c (vs ++ [F64.pinf] ++ ws ++ [v]) = ws ++ [v] := by
      have e : c = (ws ++ [v]).length := by simp [hw]
      rw [e, List.append_assoc (vs ++ [F64.pinf]) ws [v]]
      exact lastN_append_of_length _ _
    rw [map_float64_F64, hl] at hmax
    exact ⟨cb, hrun, hl, hmax⟩

/-- Witness of C10: capacity 2, `Append` of 7, +Inf, then 3 and 1; the window
ends as `[3, 1]` with `Max() = 3`. -/
theorem Inf_handling_witness :
    [F64.fin 3].length + 1 = 2 ∧
    (∃ cb, runNumeric 2 [F64.fin 7, F64.pinf] = .ok cb ∧ cb.Max = .pinf) ∧
    (∃ cb, runNumeric 2 [F64.fin 7, F64.pinf, F64.fin 3, F64.fin 1] = .ok cb ∧
      cb.Max = .fin 3) := by
  obtain ⟨h1, cb, h2, _, h3⟩ :=
    Inf_handling 2 [F64.fin 7] [F64.fin 3] (F64.fin 1) (by decide)
  refine ⟨by decide, h1, cb, h2, ?_⟩
  have h9 : IsMaxOf [F64.fin 3, F64.fin 1] (.fin 3) := by decide
  exact h3.unique h9

/-! ## `Slice` on reachable states -/

theorem goCopy_length {α : Type} (dst src : List α) : (goCopy dst src).length = dst.length := by
  simp only [goCopy, List.length_append, List.length_take, List.length_drop]
  omega

theorem goMake_natCast {α : Type} (z : α) (n : Nat) :
    goMake z (n : Int) = .ok (List.replicate n z) := by
  have h0 : ¬ ((n : Int) < 0) := by omega
  simp only [goMake, if_neg h0, Int.toNat_ofNat]

theorem goSliceTo_natCast {α : Type} (s : List α) (n : Nat) (h : n ≤ s.length) :
    goSliceTo s (n : Int) = .ok (s.take n) := by
  have h0 : ¬ ((n : Int) < 0) := by omega
  simp only [goSliceTo, if_neg h0, Int.toNat_ofNat, if_pos h]

theorem goSliceFrom_natCast {α : Type} (s : List α) (n : Nat) (h : n ≤ s.length) :
    goSliceFrom s (n : Int) = .ok (s.drop n) := by
  have h0 : ¬ ((n : Int) < 0) := by omega
  simp only [goSliceFrom, if_neg h0, Int.toNat_ofNat, if_pos h]

theorem RingInv_take {α : Type} {c : Nat} {vs buffer : List α} (h : RingInv c vs buffer)
    (hn : vs.length ≤ c) : buffer.take vs.length = vs := by
  apply List.ext_getElem?
  intro i
  by_cases hi : i < vs.length
  · rw [List.getElem?_take_of_lt hi]
    have := h.2 i hi (by omega)
    rwa [Nat.mod_eq_of_lt (by omega)] at this
  · rw [List.getElem?_take_eq_none (by omega), List.getElem?_eq_none (by omega)]

theorem CircularBuffer.Slice_reach {α : Type} [Inhabited α] {c : Nat} {vs : List α}
    {cb : CircularBuffer α} (h : CircularBuffer.Reach c vs cb) (hc : 0 < c) :
    ∃ s, cb.Slice = .ok s ∧ s.length = min vs.length c ∧ (vs.length < c → s = vs) := by
  obtain ⟨hs, hh, hr⟩ := h
  by_cases hn : vs.length < c
  · have hlt : (vs.length : Int) < (c : Int) := by omega
    refine ⟨vs, ?_, by omega, fun _ => rfl⟩
    simp only [CircularBuffer.Slice, hs, hh, if_pos hlt, goMake_natCast, bind, Except.bind]
    have e : goCopy (List.replicate vs.length (default : α)) cb.buffer = vs := by
      rw [goCopy, List.length_replicate, RingInv_take hr (by omega),
        List.drop_of_length_le (by rw [List.length_replicate, hr.1]; omega), List.append_nil]
    rw [e]
    rfl
  · have hge : ¬ ((vs.length : Int) < (c : Int)) := by omega
    have hm : vs.length % c < c := Nat.mod_lt _ hc
    have h1 : vs.length % c ≤ cb.buffer.length := by rw [hr.1]; omega
    have h2 : vs.length % c ≤ (goCopy (List.replicate c (default : α))
        (cb.buffer.take (vs.length % c))).length := by
      rw [goCopy_length, List.length_replicate]; omega
    refine ⟨(goCopy (List.replicate c (default : α)) (cb.buffer.take (vs.length % c))).take
        (vs.length % c) ++
      goCopy ((goCopy (List.replicate c (default : α)) (cb.buffer.take (vs.length % c))).drop
        (vs.length % c)) cb.buffer, ?_, ?_, fun h => absurd h hn⟩
    · simp only [CircularBuffer.Slice, hs, hh, if_neg hge, goMod_natCast _ _ hc, goMake_natCast,
        goSliceTo_natCast _ _ h1, goSliceFrom_natCast _ _ h2, bind, Except.bind,
        Int.toNat_ofNat]
      rfl
    · simp only [List.length_append, List.length_take, goCopy_length, List.length_drop,
        List.length_replicate]
      omega

theorem NumericCircularBuffer.Slice_eq_toRing {T : Type} [Number T]
    (cb : NumericCircularBuffer T) :
    cb.Slice = @CircularBuffer.Slice T (Number.inhabited T) cb.toRing := rfl

theorem NumericCircularBuffer.Get_eq_toRing {T : Type} [Number T]
    (cb : NumericCircularBuffer T) (idx : Int) :
    cb.Get idx = @CircularBuffer.Get T (Number.inhabited T) cb.toRing idx := rfl

theorem NumericCircularBuffer.Slice_reach_numeric {T : Type} [Number T] {c : Nat} {vs : List T}
    {cb : NumericCircularBuffer T} (h : NumericCircularBuffer.Reach c vs cb) (hc : 0 < c) :
    ∃ s, cb.Slice = .ok s ∧ s.length = Min.min vs.length c ∧ (vs.length < c → s = vs) := by
  rw [cb.Slice_eq_toRing]
  exact @CircularBuffer.Slice_reach T (Number.inhabited T) c vs cb.toRing h hc

/-! ## The ring of the numeric buffer is the plain ring -/

theorem CircularBuffer.Append_eq {α : Type} {c : Nat} {vs : List α} {cb : CircularBuffer α}
    (h : CircularBuffer.Reach c vs cb) (hc : 0 < c) (v : α) :
    cb.Append v =
      .ok { buffer := cb.buffer.set (vs.length % c) v, size := cb.size, head := cb.head + 1 } := by
  obtain ⟨hs, hh, hr⟩ := h
  have hm : vs.length % c < cb.buffer.length := by
    rw [hr.1]; exact Nat.mod_lt _ hc
  simp only [CircularBuffer.Append, hs, hh, goMod_natCast _ _ hc,
    goSetIndex_natCast _ _ _ hm, bind, Except.bind]
  rfl

theorem NumericCircularBuffer.Append_ring {T : Type} [Number T] {c : Nat} {vs : List T}
    {cb : NumericCircularBuffer T} (h : NumericCircularBuffer.Reach c vs cb) (hc : 0 < c)
    (v : T) :
    ∃ cb1, cb.Append v = .ok cb1 ∧ NumericCircularBuffer.Reach c (vs ++ [v]) cb1 ∧
      cb.toRing.Append v = .ok cb1.toRing := by
  have hring : ∀ cb0 : NumericCircularBuffer T, cb0.buffer = cb.buffer → cb0.size = cb.size →
      cb0.head = cb.head →
      cb.toRing.Append v = .ok (cb0.insertTo (vs.length % c) v).toRing := by
    intro cb0 e1 e2 e3
    obtain ⟨i1, i2, i3⟩ := cb0.insertTo_ring (vs.length % c) v
    rw [CircularBuffer.Append_eq (show CircularBuffer.Reach c vs cb.toRing from h) hc v]
    simp only [NumericCircularBuffer.toRing, i1, i2, i3, e1, e2, e3]
  by_cases hn : vs.length < c
  · exact ⟨_, NumericCircularBuffer.Append_eq_of_lt h hn v,
      NumericCircularBuffer.Reach_insertTo h hc rfl rfl rfl v, hring cb rfl rfl rfl⟩
  · have hle : c ≤ vs.length := by omega
    have hlt : vs.length - c < vs.length := by omega
    have hold : vs[vs.length - c]? = some vs[vs.length - c] := List.getElem?_eq_getElem hlt
    obtain ⟨e1, e2, e3⟩ := cb.evictTo_ring (Number.float64 vs[vs.length - c])
      ((vs.drop (vs.length + 1 - c)).map Number.float64)
    exact ⟨_, NumericCircularBuffer.Append_eq_of_le h hc hle _ hold v,
      NumericCircularBuffer.Reach_insertTo h hc e1 e2 e3 v, hring _ e1 e2 e3⟩

theorem runCircular_snoc {α : Type} [Inhabited α] (size : Int) (vs : List α) (v : α) :
    runCircular size (vs ++ [v]) = runCircular size vs >>= fun cb => cb.Append v := by
  simp [runCircular, CircularBuffer.AppendAll, List.foldlM_append]

theorem runNumeric_toRing {T : Type} [Number T] {c : Nat} (hc : 0 < c) (vs : List T) :
    ∃ cb, runNumeric (c : Int) vs = .ok cb ∧ (NumericCircularBuffer.Reach c vs cb ∧
      @runCircular T (Number.inhabited T) (c : Int) vs = .ok cb.toRing) := by
  apply runNumeric_induct c
  · refine ⟨⟨rfl, rfl, RingInv_replicate c Number.zero⟩, ?_⟩
    simp only [runCircular, @NewCircularBuffer_natCast T (Number.inhabited T)]
    rfl
  · intro vs cb v h
    obtain ⟨cb1, h1, hr1, hring⟩ := NumericCircularBuffer.Append_ring h.1 hc v
    refine ⟨cb1, h1, hr1, ?_⟩
    rw [@runCircular_snoc T (Number.inhabited T), h.2]
    exact hring

/-! ## Sequences of calls return normally -/

theorem CircularBuffer.calls_ok {α : Type} [Inhabited α] {c : Nat} (hc : 0 < c)
    (calls : List (Call α)) :
    ∀ (vs : List α) (cb : CircularBuffer α), CircularBuffer.Reach c vs cb →
      ∃ cb1, calls.foldlM CircularBuffer.call cb = .ok cb1 ∧
        CircularBuffer.Reach c (vs ++ appended calls) cb1 := by
  induction calls with
  | nil =>
    intro vs cb h
    exact ⟨cb, rfl, by simpa [appended] using h⟩
  | cons call calls ih =>
    intro vs cb h
    have hsame : CircularBuffer.call cb call = .ok cb →
        appended (call :: calls) = appended calls →
        ∃ cb1, (call :: calls).foldlM CircularBuffer.call cb = .ok cb1 ∧
          CircularBuffer.Reach c (vs ++ appended (call :: calls)) cb1 := by
      intro e1 e2
      obtain ⟨cb2, h2, hr2⟩ := ih vs cb h
      refine ⟨cb2, ?_, by rw [e2]; exact hr2⟩
      simp only [List.foldlM_cons, e1]
      exact h2
    cases call with
    | Append v =>
      obtain ⟨cb1, h1, hr1⟩ := CircularBuffer.Append_reach h hc v
      obtain ⟨cb2, h2, hr2⟩ := ih (vs ++ [v]) cb1 hr1
      refine ⟨cb2, ?_, by simpa [appended] using hr2⟩
      simp only [List.foldlM_cons, CircularBuffer.call, h1]
      exact h2
    | Get idx =>
      apply hsame _ rfl
      obtain ⟨a1, a2⟩ := CircularBuffer.Get_reach h hc idx
      by_cases hout : idx < 0 ∨ idx ≥ vs.length ∨ idx < (vs.length : Int) - c
      · simp only [CircularBuffer.call, a1 hout]; rfl
      · obtain ⟨v, _, e⟩ := a2 hout
        simp only [CircularBuffer.call, e]; rfl
    | Slice =>
      apply hsame _ rfl
      obtain ⟨s, e, _⟩ := CircularBuffer.Slice_reach h hc
      simp only [CircularBuffer.call, e]; rfl

theorem NumericCircularBuffer.calls_ok_numeric {T : Type} [Number T] {c : Nat} (hc : 0 < c)
    (calls : List (Call T)) :
    ∀ (vs : List T) (cb : NumericCircularBuffer T), NumericCircularBuffer.Reach c vs cb →
      ∃ cb1, calls.foldlM NumericCircularBuffer.call cb = .ok cb1 ∧
        NumericCircularBuffer.Reach c (vs ++ appended calls) cb1 := by
  induction calls with
  | nil =>
    intro vs cb h
    exact ⟨cb, rfl, by simpa [appended] using h⟩
  | cons call calls ih =>
    intro vs cb h
    have hsame : NumericCircularBuffer.call cb call = .ok cb →
        appended (call :: calls) = appended calls →
        ∃ cb1, (call :: calls).foldlM NumericCircularBuffer.call cb = .ok cb1 ∧
          NumericCircularBuffer.Reach c (vs ++ appended (call :: calls)) cb1 := by
      intro e1 e2
      obtain ⟨cb2, h2, hr2⟩ := ih vs cb h
      refine ⟨cb2, ?_, by rw [e2]; exact hr2⟩
      simp only [List.foldlM_cons, e1]
      exact h2
    cases call with
    | Append v =>
      obtain ⟨cb1, h1, hr1, _⟩ := NumericCircularBuffer.Append_ring h hc v
      obtain ⟨cb2, h2, hr2⟩ := ih (vs ++ [v]) cb1 hr1
      refine ⟨cb2, ?_, by simpa [appended] using hr2⟩
      simp only [List.foldlM_cons, NumericCircularBuffer.call, h1]
      exact h2
    | Get idx =>
      apply hsame _ rfl
      obtain ⟨a1, a2⟩ := NumericCircularBuffer.Get_reach_numeric h hc idx
      by_cases hout : idx < 0 ∨ idx ≥ vs.length ∨ idx < (vs.length : Int) - c
      · simp only [NumericCircularBuffer.call, a1 hout]; rfl
      · obtain ⟨v, _, e⟩ := a2 hout
        simp only [NumericCircularBuffer.call, e]; rfl
    | Slice =>
      apply hsame _ rfl
      obtain ⟨s, e, _⟩ := NumericCircularBuffer.Slice_reach_numeric h hc
      simp only [NumericCircularBuffer.call, e]; rfl

/-! ## Exact minima -/

theorem IsMinOf_nil : IsMinOf [] .pinf :=
  ⟨by simp, Or.inr ⟨by simp, rfl⟩⟩

theorem IsMinOf.not_nan_min {xs : List F64} {m : F64} (h : IsMinOf xs m) : m.IsNaN = false := by
  rcases h.2 with ⟨_, h⟩ | ⟨_, rfl⟩
  · exact h
  · rfl

theorem IsMinOf.unique_min {xs : List F64} {m m1 : F64} (h : IsMinOf xs m)
    (h1 : IsMinOf xs m1) : m = m1 := by
  rcases h.2 with ⟨hm, hn⟩ | ⟨hall, rfl⟩
  · rcases h1.2 with ⟨hm1, hn1⟩ | ⟨hall1, rfl⟩
    · exact F64.le_antisymm (h.1 m1 hm1 hn1) (h1.1 m hm hn)
    · rw [hall1 m hm] at hn; cases hn
  · rcases h1.2 with ⟨hm1, hn1⟩ | ⟨_, rfl⟩
    · rw [hall m1 hm1] at hn1; cases hn1
    · rfl

theorem IsMinOf_of_ninf_mem {xs : List F64} (h : F64.ninf ∈ xs) : IsMinOf xs .ninf :=
  ⟨fun _ _ hx => F64.ninf_le hx, Or.inl ⟨h, rfl⟩⟩

theorem IsMinOf_snoc_nan {xs : List F64} {m x : F64} (h : IsMinOf xs m) (hx : x.IsNaN = true) :
    IsMinOf (xs ++ [x]) m := by
  refine ⟨?_, ?_⟩
  · intro y hy hyn
    rcases List.mem_append.1 hy with hy | hy
    · exact h.1 y hy hyn
    · rw [List.mem_singleton.1 hy, hx] at hyn; cases hyn
  · rcases h.2 with ⟨hm, hn⟩ | ⟨hall, hm⟩
    · exact Or.inl ⟨List.mem_append_left _ hm, hn⟩
    · refine Or.inr ⟨?_, hm⟩
      intro y hy
      rcases List.mem_append.1 hy with hy | hy
      · exact hall y hy
      · rw [List.mem_singleton.1 hy]; exact hx

theorem IsMinOf_snoc {xs : List F64} {m x : F64} (h : IsMinOf xs m) (hx : x.IsNaN = false) :
    IsMinOf (xs ++ [x]) (if F64.lt x m = true then x else m) := by
  have hmn := h.not_nan_min
  by_cases hg : F64.lt x m = true
  · rw [if_pos hg]
    refine ⟨?_, Or.inl ⟨by simp, hx⟩⟩
    intro y hy hyn
    rcases List.mem_append.1 hy with hy | hy
    · exact F64.le_trans (F64.le_of_lt hg) (h.1 y hy hyn)
    · rw [List.mem_singleton.1 hy]; exact F64.le_refl_of_not_nan hx
  · rw [if_neg hg]
    have hle : F64.le m x = true :=
      F64.le_of_gt_eq_false hmn hx (by simpa [F64.gt] using hg)
    refine ⟨?_, ?_⟩
    · intro y hy hyn
      rcases List.mem_append.1 hy with hy | hy
      · exact h.1 y hy hyn
      · rw [List.mem_singleton.1 hy]; exact hle
    · rcases h.2 with ⟨hm, hn⟩ | ⟨_, hm⟩
      · exact Or.inl ⟨List.mem_append_left _ hm, hn⟩
      · subst hm
        have : F64.pinf = x := F64.le_antisymm hle (F64.le_pinf hx)
        subst this
        exact Or.inl ⟨by simp, rfl⟩

theorem IsMinOf_tail_of_nan {xs : List F64} {m x : F64} (h : IsMinOf (x :: xs) m)
    (hx : x.IsNaN = true) : IsMinOf xs m := by
  refine ⟨fun y hy hyn => h.1 y (List.mem_cons_of_mem _ hy) hyn, ?_⟩
  rcases h.2 with ⟨hm, hn⟩ | ⟨hall, hm⟩
  · rcases List.mem_cons.1 hm with rfl | hm
    · rw [hx] at hn; cases hn
    · exact Or.inl ⟨hm, hn⟩
  · exact Or.inr ⟨fun y hy => hall y (List.mem_cons_of_mem _ hy), hm⟩

theorem IsMinOf_tail_of_not_le {xs : List F64} {m x : F64} (h : IsMinOf (x :: xs) m)
    (hx : x.IsNaN = false) (hle : F64.le x m = false) : IsMinOf xs m := by
  refine ⟨fun y hy hyn => h.1 y (List.mem_cons_of_mem _ hy) hyn, ?_⟩
  rcases h.2 with ⟨hm, hn⟩ | ⟨hall, _⟩
  · rcases List.mem_cons.1 hm with rfl | hm
    · rw [F64.le_refl_of_not_nan hx] at hle; cases hle
    · exact Or.inl ⟨hm, hn⟩
  · rw [hall x (by simp)] at hx; cases hx

theorem scanMin_spec (xs : List F64) :
    ∀ (ys : List F64) (m : F64), IsMinOf ys m → IsMinOf (ys ++ xs) (scanMin xs m) := by
  induction xs with
  | nil => intro ys m h; simpa [scanMin] using h
  | cons x xs ih =>
    intro ys m h
    have e : ys ++ x :: xs = (ys ++ [x]) ++ xs := by simp
    simp only [scanMin]
    split
    · rw [e]; exact ih _ _ (IsMinOf_snoc_nan h ‹_›)
    · split
      · have hx : x = .ninf := by
          cases x <;> simp_all [F64.IsInf]
        subst hx
        exact IsMinOf_of_ninf_mem (by simp)
      · have hx : x.IsNaN = false := by simpa using ‹¬ x.IsNaN = true›
        have hs := IsMinOf_snoc h hx
        split
        · rw [e]; rw [if_pos ‹_›] at hs; exact ih _ _ hs
        · rw [e]; rw [if_neg ‹_›] at hs; exact ih _ _ hs

theorem scanMin_isMinOf (xs : List F64) : IsMinOf xs (scanMin xs (F64.Inf 1)) := by
  simpa using scanMin_spec xs [] .pinf IsMinOf_nil

/-- When the evicted value is at the same time the maximum and the minimum of a
window whose other values are numbers, these all equal it. -/
theorem IsMinOf_tail_of_eq_max {xs : List F64} {m M x : F64} (hmin : IsMinOf (x :: xs) m)
    (hmax : IsMaxOf (x :: xs) M) (hx : x.IsNaN = false) (hxM : F64.le M x = true)
    (hall : ∀ y ∈ xs, y.IsNaN = false) (hne : xs ≠ []) : IsMinOf xs m := by
  refine ⟨fun y hy hyn => hmin.1 y (List.mem_cons_of_mem _ hy) hyn, ?_⟩
  rcases hmin.2 with ⟨hm, hn⟩ | ⟨hnan, _⟩
  · rcases List.mem_cons.1 hm with rfl | hm
    · obtain ⟨y, hy⟩ := List.exists_mem_of_ne_nil xs hne
      have hyn := hall y hy
      have h1 : F64.le m y = true := hmin.1 y (List.mem_cons_of_mem _ hy) hyn
      have h2 : F64.le y m = true :=
        F64.le_trans (hmax.1 y (List.mem_cons_of_mem _ hy) hyn) hxM
      have : m = y := F64.le_antisymm h1 h2
      subst this
      exact Or.inl ⟨hy, hn⟩
    · exact Or.inl ⟨hm, hn⟩
  · rw [hnan x (by simp)] at hx; cases hx

/-! ## The minimum through `Append` -/

theorem NumericCircularBuffer.insertTo_min {T : Type} [Number T] (cb : NumericCircularBuffer T)
    (slot : Nat) (val : T) (xs : List F64) (h : IsMinOf xs cb.min) :
    IsMinOf (xs ++ [Number.float64 val]) (cb.insertTo slot val).min := by
  unfold NumericCircularBuffer.insertTo
  dsimp only
  split
  · have hx : (Number.float64 val).IsNaN = false := by
      simpa using ‹(!(Number.float64 val).IsNaN) = true›
    have hs := IsMinOf_snoc h hx
    split <;> split
    · rw [if_pos ‹_›] at hs; exact hs
    · rw [if_neg ‹_›] at hs; exact hs
    · rw [if_pos ‹_›] at hs; exact hs
    · rw [if_neg ‹_›] at hs; exact hs
  · have hx : (Number.float64 val).IsNaN = true := by
      simpa using ‹¬ (!(Number.float64 val).IsNaN) = true›
    exact IsMinOf_snoc_nan h hx

theorem NumericCircularBuffer.evictTo_min {T : Type} (cb : NumericCircularBuffer T)
    (oldVal : F64) (others : List F64) (hmin : IsMinOf (oldVal :: others) cb.min)
    (hmax : IsMaxOf (oldVal :: others) cb.max) (hx : oldVal.IsNaN = false)
    (hall : ∀ y ∈ others, y.IsNaN = false) (hne : others ≠ []) :
    IsMinOf others (cb.evictTo oldVal others).min := by
  unfold NumericCircularBuffer.evictTo
  split
  · dsimp only
    split
    · have hxM : F64.le cb.max oldVal = true := by
        have := ‹(F64.IsInf oldVal 1 || F64.ge oldVal cb.max) = true›
        rcases Bool.or_eq_true_iff.1 this with h | h
        · have e : oldVal = .pinf := by
            cases oldVal <;> simp_all [F64.IsInf]
          rw [e]
          exact F64.le_pinf hmax.not_nan
        · exact h
      exact IsMinOf_tail_of_eq_max hmin hmax hx hxM hall hne
    · split
      · exact scanMin_isMinOf others
      · have hle : F64.le oldVal cb.min = false := by
          have := ‹¬ (F64.IsInf oldVal (-1) || F64.le oldVal cb.min) = true›
          simp only [Bool.or_eq_true, not_or, Bool.not_eq_true] at this
          exact this.2
        exact IsMinOf_tail_of_not_le hmin hx hle
  · have : oldVal.IsNaN = true := by simpa using ‹¬ (!oldVal.IsNaN) = true›
    rw [hx] at this; cases this

theorem NumericCircularBuffer.evictTo_min_of_single {T : Type} (cb : NumericCircularBuffer T)
    (oldVal : F64) (hmax : IsMaxOf [oldVal] cb.max) :
    (cb.evictTo oldVal []).min = cb.min := by
  unfold NumericCircularBuffer.evictTo
  split
  · dsimp only
    split
    · rfl
    · have hx : oldVal.IsNaN = false := by simpa using ‹(!oldVal.IsNaN) = true›
      have e : cb.max = oldVal := hmax.unique
        ⟨fun y hy _ => by rw [List.mem_singleton.1 hy]; exact F64.le_refl_of_not_nan hx,
          Or.inl ⟨by simp, hx⟩⟩
      have hge : F64.ge oldVal cb.max = true := by
        rw [e, F64.ge]; exact F64.le_refl_of_not_nan hx
      have := ‹¬ (F64.IsInf oldVal 1 || F64.ge oldVal cb.max) = true›
      rw [hge, Bool.or_true] at this
      exact absurd rfl this
  · rfl

theorem NumericCircularBuffer.Append_min {T : Type} [Number T] {c : Nat} (hc : 2 ≤ c)
    (vs : List T) (cb : NumericCircularBuffer T) (v : T)
    (h : NumericCircularBuffer.Reach c vs cb ∧
      IsMaxOf ((lastN c vs).map Number.float64) cb.max ∧
      ((∀ x ∈ vs, (Number.float64 x).IsNaN = false) →
        IsMinOf ((lastN c vs).map Number.float64) cb.min)) :
    ∃ cb1, cb.Append v = .ok cb1 ∧ (NumericCircularBuffer.Reach c (vs ++ [v]) cb1 ∧
      IsMaxOf ((lastN c (vs ++ [v])).map Number.float64) cb1.max ∧
      ((∀ x ∈ vs ++ [v], (Number.float64 x).IsNaN = false) →
        IsMinOf ((lastN c (vs ++ [v])).map Number.float64) cb1.min)) := by
  obtain ⟨hr, hmax, hmin⟩ := h
  have hc0 : 0 < c := by omega
  obtain ⟨cb1, h1, hr1, hmax1⟩ := NumericCircularBuffer.Append_max hc0 vs cb v ⟨hr, hmax⟩
  refine ⟨cb1, h1, hr1, hmax1, ?_⟩
  intro hall
  have hallvs : ∀ x ∈ vs, (Number.float64 x).IsNaN = false :=
    fun x hx => hall x (List.mem_append_left _ hx)
  have hmin0 := hmin hallvs
  rw [lastN_snoc vs v hc0, List.map_append, List.map_singleton]
  by_cases hn : vs.length < c
  · have e := NumericCircularBuffer.Append_eq_of_lt hr hn v
    rw [h1] at e
    cases e
    rw [(lastN_of_lt hn).1] at hmin0
    rw [(lastN_of_lt hn).2]
    exact cb.insertTo_min _ v _ hmin0
  · have hle : c ≤ vs.length := by omega
    have hlt : vs.length - c < vs.length := by omega
    have hold : vs[vs.length - c]? = some vs[vs.length - c] := List.getElem?_eq_getElem hlt
    have e := NumericCircularBuffer.Append_eq_of_le hr hc0 hle _ hold v
    rw [h1] at e
    cases e
    rw [lastN_of_le hle hc0 hold, List.map_cons] at hmin0 hmax
    apply NumericCircularBuffer.insertTo_min
    apply cb.evictTo_min _ _ hmin0 hmax (hallvs _ (List.getElem_mem _))
    · intro y hy
      obtain ⟨x, hx, rfl⟩ := List.mem_map.1 hy
      exact hallvs x (List.mem_of_mem_drop hx)
    · intro hnil
      have hlen := congrArg List.length hnil
      simp only [List.length_map, List.length_drop, List.length_nil] at hlen
      omega

theorem runNumeric_min {T : Type} [Number T] {c : Nat} (hc : 2 ≤ c) (vs : List T) :
    ∃ cb, runNumeric (c : Int) vs = .ok cb ∧ (NumericCircularBuffer.Reach c vs cb ∧
      IsMaxOf ((lastN c vs).map Number.float64) cb.max ∧
      ((∀ x ∈ vs, (Number.float64 x).IsNaN = false) →
        IsMinOf ((lastN c vs).map Number.float64) cb.min)) := by
  apply runNumeric_induct c
  · exact ⟨⟨rfl, rfl, RingInv_replicate c Number.zero⟩, by simpa [lastN] using IsMaxOf_nil,
      fun _ => by simpa [lastN] using IsMinOf_nil⟩
  · exact fun vs cb v h => NumericCircularBuffer.Append_min hc vs cb v h

theorem NumericCircularBuffer.Append_min_single {T : Type} [Number T]
    (vs : List T) (cb : NumericCircularBuffer T) (v : T)
    (h : NumericCircularBuffer.Reach 1 vs cb ∧
      IsMaxOf ((lastN 1 vs).map Number.float64) cb.max ∧
      IsMinOf (vs.map Number.float64) cb.min) :
    ∃ cb1, cb.Append v = .ok cb1 ∧ (NumericCircularBuffer.Reach 1 (vs ++ [v]) cb1 ∧
      IsMaxOf ((lastN 1 (vs ++ [v])).map Number.float64) cb1.max ∧
      IsMinOf ((vs ++ [v]).map Number.float64) cb1.min) := by
  obtain ⟨hr, hmax, hmin⟩ := h
  have hc0 : 0 < 1 := by decide
  obtain ⟨cb1, h1, hr1, hmax1⟩ := NumericCircularBuffer.Append_max hc0 vs cb v ⟨hr, hmax⟩
  refine ⟨cb1, h1, hr1, hmax1, ?_⟩
  rw [List.map_append, List.map_singleton]
  by_cases hn : vs.length < 1
  · have e := NumericCircularBuffer.Append_eq_of_lt hr hn v
    rw [h1] at e
    cases e
    exact cb.insertTo_min _ v _ hmin
  · have hle : 1 ≤ vs.length := by omega
    have hlt : vs.length - 1 < vs.length := by omega
    have hold : vs[vs.length - 1]? = some vs[vs.length - 1] := List.getElem?_eq_getElem hlt
    have e := NumericCircularBuffer.Append_eq_of_le hr hc0 hle _ hold v
    rw [h1] at e
    cases e
    have hd : vs.drop (vs.length + 1 - 1) = [] := List.drop_of_length_le (by omega)
    rw [lastN_of_le hle hc0 hold, hd, List.map_cons, List.map_nil] at hmax
    apply NumericCircularBuffer.insertTo_min
    rw [hd, List.map_nil, cb.evictTo_min_of_single _ hmax]
    exact hmin

theorem runNumeric_min_single {T : Type} [Number T] (vs : List T) :
    ∃ cb, runNumeric ((1 : Nat) : Int) vs = .ok cb ∧ (NumericCircularBuffer.Reach 1 vs cb ∧
      IsMaxOf ((lastN 1 vs).map Number.float64) cb.max ∧
      IsMinOf (vs.map Number.float64) cb.min) := by
  apply runNumeric_induct 1
  · exact ⟨⟨rfl, rfl, RingInv_replicate 1 Number.zero⟩, by simpa [lastN] using IsMaxOf_nil,
      by simpa using IsMinOf_nil⟩
  · exact fun vs cb v h => NumericCircularBuffer.Append_min_single vs cb v h

/-! ## Division on finite values -/

theorem F64.div_fin (a b : ℚ) (hb : b ≠ 0) : F64.div (.fin a) (.fin b) = .fin (a / b) := by
  simp [F64.div, hb]

theorem lastN_length_pos {α : Type} {c : Nat} (hc : 0 < c) {vs : List α} (hne : vs ≠ []) :
    0 < (lastN c vs).length := by
  have : 0 < vs.length := List.length_pos.2 hne
  rw [lastN_length]
  omega

/-! ## The claims, continued -/

/-- C11. For every capacity `c` and every sequence `vs` of `n < c` appends,
`Slice()` of the `CircularBuffer` and of the `NumericCircularBuffer` returns
exactly `vs`, the appended values in write order, and nothing else. -/
theorem Slice_before_full (T : Type) [Inhabited T] [Number T] (c : Nat) (vs : List T)
    (hn : vs.length < c) :
    (∃ cb, runCircular (c : Int) vs = .ok cb ∧ cb.Slice = .ok vs) ∧
    (∃ cb, runNumeric (c : Int) vs = .ok cb ∧ cb.Slice = .ok vs) := by
  have hc : 0 < c := by omega
  constructor
  · obtain ⟨cb, hrun, hr⟩ := runCircular_reach hc vs
    obtain ⟨s, hs, _, hv⟩ := CircularBuffer.Slice_reach hr hc
    exact ⟨cb, hrun, by rw [hs, hv hn]⟩
  · obtain ⟨cb, hrun, hr, _⟩ := runNumeric_max hc vs
    obtain ⟨s, hs, _, hv⟩ := NumericCircularBuffer.Slice_reach_numeric hr hc
    exact ⟨cb, hrun, by rw [hs, hv hn]⟩

/-- Witness of C11: capacity 3 after `Append` of 5 and 1. -/
theorem Slice_before_full_witness :
    [(5 : Int), 1].length < 3 ∧
    (∃ cb, runCircular 3 [(5 : Int), 1] = .ok cb ∧ cb.Slice = .ok [5, 1]) ∧
    (∃ cb, runNumeric 3 [(5 : Int), 1] = .ok cb ∧ cb.Slice = .ok [5, 1]) :=
  ⟨by decide, Slice_before_full Int 3 [5, 1] (by decide)⟩

/-- C12. For every capacity `c ≥ 1` and every sequence `vs` of `n` appends,
`Slice()` returns normally and the length of its result is `min(n, c)`, hence at
most `c`. -/
theorem Slice_length_bound (α : Type) [Inhabited α] (c : Nat) (hc : 1 ≤ c) (vs : List α) :
    ∃ cb s, runCircular (c : Int) vs = .ok cb ∧ cb.Slice = .ok s ∧
      s.length = min vs.length c ∧ s.length ≤ c := by
  obtain ⟨cb, hrun, hr⟩ := runCircular_reach (show 0 < c by omega) vs
  obtain ⟨s, hs, hl, _⟩ := CircularBuffer.Slice_reach hr (show 0 < c by omega)
  exact ⟨cb, s, hrun, hs, hl, by rw [hl]; omega⟩

/-- Witness of C12: capacity 3 after `Append` of 5, 1, 4, 9. -/
theorem Slice_length_bound_witness :
    1 ≤ 3 ∧ ∃ cb s, runCircular 3 [(5 : Int), 1, 4, 9] = .ok cb ∧ cb.Slice = .ok s ∧
      s.length = 3 := by
  obtain ⟨cb, s, h1, h2, h3, _⟩ := Slice_length_bound Int 3 (by decide) [5, 1, 4, 9]
  exact ⟨by decide, cb, s, h1, h2, h3⟩

/-- C13. For every capacity `c ≥ 1` and every non-empty sequence `vs` of `n`
appends of integer values, `Mean()` is the sum of the last `min(n, c)` appended
values divided by `min(n, c)`. -/
theorem Mean_of_window (c : Nat) (hc : 1 ≤ c) (vs : List Int) (hne : vs ≠ []) :
    ∃ cb, runNumeric (c : Int) vs = .ok cb ∧
      cb.Mean = .fin ((((lastN c vs).sum : Int) : ℚ) / ((min vs.length c : Nat) : ℚ)) := by
  have hc0 : 0 < c := by omega
  obtain ⟨cb, hrun, _, hcount, hsum, _⟩ :=
    runNumeric_agg hc0 (fun v : Int => (v : ℚ)) (fun _ => rfl) vs
  refine ⟨cb, hrun, ?_⟩
  have hpos := lastN_length_pos hc0 hne
  have hk : (((lastN c vs).length : Nat) : ℚ) ≠ 0 := by
    exact_mod_cast (Nat.pos_iff_ne_zero.1 hpos)
  rw [NumericCircularBuffer.Mean, hsum, hcount, F64.div_fin _ _ hk, lastN_length,
    Int.cast_list_sum]

/-- Witness of C13: capacity 3, `Append` of 5, 1, 4 gives `Slice() = [5, 1, 4]`,
`Min() = 1`, `Max() = 5`, `Sum() = 10` and `Mean() = 10/3`. -/
theorem Mean_of_window_witness :
    (1 ≤ 3 ∧ [(5 : Int), 1, 4] ≠ []) ∧
    ∃ cb, runNumeric 3 [(5 : Int), 1, 4] = .ok cb ∧ cb.Mean = .fin (10 / 3) ∧
      cb.Slice = .ok [5, 1, 4] ∧ cb.Min = .fin 1 ∧ cb.Max = .fin 5 ∧ cb.Sum = .fin 10 := by
  obtain ⟨cb, h, hmean⟩ := Mean_of_window 3 (by decide) [5, 1, 4] (by decide)
  have e : (runNumeric 3 [(5 : Int), 1, 4]).map
      (fun cb => (cb.Slice, cb.Min, cb.Max, cb.Sum))
        = .ok (.ok [5, 1, 4], .fin 1, .fin 5, .fin 10) := by
    with_unfolding_all decide
  have h3 : runNumeric 3 [(5 : Int), 1, 4] = .ok cb := h
  rw [h3] at e
  simp only [Except.map, Except.ok.injEq, Prod.mk.injEq] at e
  refine ⟨⟨by decide, by decide⟩, cb, h, ?_, e.1, e.2.1, e.2.2.1, e.2.2.2⟩
  rw [hmean]
  with_unfolding_all decide

/-- C14. For every capacity `c ≥ 1` and every sequence `vs` of appends applied
to a `CircularBuffer[T]` and to a `NumericCircularBuffer[T]`, both return
normally with equal `buffer`, `size` and `head`, `Get(idx)` returns the same
value and error on both for every `idx`, and `Slice()` returns the same
sequence. -/
theorem numeric_ring_is_plain_ring (T : Type) [Number T] (c : Nat) (hc : 1 ≤ c) (vs : List T) :
    ∃ cb ncb, @runCircular T (Number.inhabited T) (c : Int) vs = .ok cb ∧
      runNumeric (c : Int) vs = .ok ncb ∧
      ncb.buffer = cb.buffer ∧ ncb.size = cb.size ∧ ncb.head = cb.head ∧
      (∀ idx, ncb.Get idx = @CircularBuffer.Get T (Number.inhabited T) cb idx) ∧
      ncb.Slice = @CircularBuffer.Slice T (Number.inhabited T) cb := by
  obtain ⟨ncb, hn, _, hring⟩ := runNumeric_toRing (show 0 < c by omega) vs
  exact ⟨ncb.toRing, ncb, hring, hn, rfl, rfl, rfl, fun idx => ncb.Get_eq_toRing idx,
    ncb.Slice_eq_toRing⟩

/-- Witness of C14: capacity 3 after `Append` of 5, 1, 4, 9; both buffers hold
`[9, 1, 4]` with `head = 4`. -/
theorem numeric_ring_is_plain_ring_witness :
    1 ≤ 3 ∧ ∃ cb ncb, @runCircular Int (Number.inhabited Int) 3 [5, 1, 4, 9] = .ok cb ∧
      runNumeric 3 [(5 : Int), 1, 4, 9] = .ok ncb ∧
      ncb.buffer = cb.buffer ∧ ncb.size = cb.size ∧ ncb.head = cb.head ∧
      cb.buffer = [9, 1, 4] ∧ cb.head = 4 := by
  obtain ⟨cb, ncb, h1, h2, e1, e2, e3, _, _⟩ :=
    numeric_ring_is_plain_ring Int 3 (by decide) [5, 1, 4, 9]
  have e : (@runCircular Int (Number.inhabited Int) 3 [5, 1, 4, 9]).map
      (fun cb => (cb.buffer, cb.head)) = .ok ([9, 1, 4], 4) := by decide
  have h3 : @runCircular Int (Number.inhabited Int) 3 [5, 1, 4, 9] = .ok cb := h1
  rw [h3] at e
  simp only [Except.map, Except.ok.injEq, Prod.mk.injEq] at e
  exact ⟨by decide, cb, ncb, h1, h2, e1, e2, e3, e.1, e.2⟩

/-- C15. For every capacity `c ≥ 1` and every non-empty sequence `vs` of `n`
appends of integer values, `RMS()` is the square root of `S` divided by `k`,
where `S` is the sum of the squares of the `k = min(n, c)` resident values: the
division by `k` is applied to the root, not under it. -/
theorem RMS_formula (Sqrt : F64 → F64) (c : Nat) (hc : 1 ≤ c) (vs : List Int) (hne : vs ≠ []) :
    ∃ cb, runNumeric (c : Int) vs = .ok cb ∧
      cb.RMS Sqrt =
        F64.div (Sqrt (.fin ((((lastN c vs).map fun v => v * v).sum : Int) : ℚ)))
          (.fin ((min vs.length c : Nat) : ℚ)) ∧
      (∀ r : ℚ, Sqrt (.fin ((((lastN c vs).map fun v => v * v).sum : Int) : ℚ)) = .fin r →
        cb.RMS Sqrt = .fin (r / ((min vs.length c : Nat) : ℚ))) := by
  have hc0 : 0 < c := by omega
  obtain ⟨cb, hrun, _, hcount, _, hsq⟩ :=
    runNumeric_agg hc0 (fun v : Int => (v : ℚ)) (fun _ => rfl) vs
  have hpos := lastN_length_pos hc0 hne
  have hk : ((min vs.length c : Nat) : ℚ) ≠ 0 := by
    rw [← lastN_length]
    exact_mod_cast (Nat.pos_iff_ne_zero.1 hpos)
  have hS : cb.sqsum = .fin ((((lastN c vs).map fun v => v * v).sum : Int) : ℚ) := by
    rw [hsq, Int.cast_list_sum, List.map_map]
    congr 2
    apply List.map_congr_left
    intro v _
    simp
  have hR : cb.RMS Sqrt =
      F64.div (Sqrt (.fin ((((lastN c vs).map fun v => v * v).sum : Int) : ℚ)))
        (.fin ((min vs.length c : Nat) : ℚ)) := by
    rw [NumericCircularBuffer.RMS, hS, hcount, lastN_length]
  refine ⟨cb, hrun, hR, ?_⟩
  intro r hr
  rw [hR, hr, F64.div_fin _ _ hk]

/-- Witness of C15: capacity 2, `Append` of 3 and 4 gives `RMS() = 5/2`, with a
square root that is exact on squares; `5/2` is not the root of `25/2`. -/
theorem RMS_formula_witness :
    (1 ≤ 2 ∧ [(3 : Int), 4] ≠ []) ∧
    (∃ cb, runNumeric 2 [(3 : Int), 4] = .ok cb ∧
      cb.RMS (fun x => match x with
        | .fin q => .fin (Rat.sqrt q)
        | y => y) = .fin (5 / 2)) ∧
    (5 / 2 : ℚ) * (5 / 2) ≠ 25 / 2 := by
  obtain ⟨cb, h, _, hr⟩ := RMS_formula (fun x => match x with
        | .fin q => .fin (Rat.sqrt q)
        | y => y) 2 (by decide) [3, 4] (by decide)
  refine ⟨⟨by decide, by decide⟩, ⟨cb, h, ?_⟩, by norm_num⟩
  have h5 : Rat.sqrt (5 * 5) = 5 := by
    rw [Rat.sqrt_eq]; norm_num
  have e := hr 5 (by
    show F64.fin (Rat.sqrt _) = F64.fin 5
    rw [← h5]
    congr 2
    norm_num [lastN])
  rw [e]
  norm_num

/-- C17. For every capacity `c ≥ 2` and every sequence `vs` of appends none of
which is not-a-number (in particular every sequence of integers), the appends
return normally and `Min()` is the exact minimum of the last `min(n, c)`
appended values. -/
theorem Min_exact_without_NaN (T : Type) [Number T] (c : Nat) (hc : 2 ≤ c) (vs : List T)
    (hnan : ∀ v ∈ vs, (Number.float64 v).IsNaN = false) :
    ∃ cb, runNumeric (c : Int) vs = .ok cb ∧
      (lastN c vs).length = min vs.length c ∧
      IsMinOf ((lastN c vs).map Number.float64) cb.Min := by
  obtain ⟨cb, hrun, _, _, hmin⟩ := runNumeric_min hc vs
  exact ⟨cb, hrun, lastN_length c vs, hmin hnan⟩

/-- Witness of C17: capacity 2, `Append` of 5, 5, 7; the evicted 5 is at once
the maximum and the minimum of the window `[5, 5]`, and `Min()` ends as 5. -/
theorem Min_exact_without_NaN_witness :
    (2 ≤ 2 ∧ ∀ v ∈ [(5 : Int), 5, 7], (Number.float64 v).IsNaN = false) ∧
    ∃ cb, runNumeric 2 [(5 : Int), 5, 7] = .ok cb ∧ cb.Min = .fin 5 := by
  have hn : ∀ v ∈ [(5 : Int), 5, 7], (Number.float64 v).IsNaN = false := fun _ _ => rfl
  obtain ⟨cb, h, _, hmin⟩ := Min_exact_without_NaN Int 2 (by decide) [5, 5, 7] hn
  refine ⟨⟨by decide, hn⟩, cb, h, ?_⟩
  have h5 : IsMinOf ((lastN 2 [(5 : Int), 5, 7]).map Number.float64) (.fin 5) := by decide
  exact hmin.unique_min h5

/-- C18. For capacity 1 and every non-empty sequence `vs` of appends of integer
values, `Max()` is the last appended value and `Min()` is the minimum of all
the values of `vs`, not of the one-element window. -/
theorem capacity_one_extrema (vs : List Int) (hne : vs ≠ []) :
    ∃ cb, runNumeric 1 vs = .ok cb ∧
      cb.Max = .fin ((vs.getLast hne : Int) : ℚ) ∧
      IsMinOf (vs.map Number.float64) cb.Min := by
  obtain ⟨cb, hrun, _, hmax, hmin⟩ := runNumeric_min_single vs
  refine ⟨cb, hrun, ?_, hmin⟩
  have hl : lastN 1 vs = [vs.getLast hne] := by
    conv_lhs => rw [← List.dropLast_append_getLast hne]
    rw [lastN_snoc _ _ (by decide), List.drop_of_length_le (by omega), List.nil_append]
  rw [hl] at hmax
  have hL : IsMaxOf ([vs.getLast hne].map Number.float64) (.fin ((vs.getLast hne : Int) : ℚ)) :=
    ⟨fun y hy _ => by
        rw [List.map_singleton, List.mem_singleton] at hy
        rw [hy]
        exact F64.le_refl_of_not_nan rfl,
      Or.inl ⟨by simp [Number.float64], rfl⟩⟩
  exact hmax.unique hL

/-- Witness of C18: capacity 1, `Append` of 3, 5, 7 gives `Max() = 7` and
`Min() = 3`. -/
theorem capacity_one_extrema_witness :
    [(3 : Int), 5, 7] ≠ [] ∧
    ∃ cb, runNumeric 1 [(3 : Int), 5, 7] = .ok cb ∧ cb.Max = .fin 7 ∧ cb.Min = .fin 3 := by
  obtain ⟨cb, h, hmax, hmin⟩ := capacity_one_extrema [3, 5, 7] (by decide)
  refine ⟨by decide, cb, h, ?_, ?_⟩
  · rw [hmax]; with_unfolding_all decide
  · have h3 : IsMinOf ([(3 : Int), 5, 7].map Number.float64) (.fin 3) := by decide
    exact hmin.unique_min h3

/-- C19. For every buffer created with `size ≥ 1` and every sequence of
`Append`, `Get` (with any integer index) and `Slice` calls on a `CircularBuffer`
or a `NumericCircularBuffer`, every call returns normally: no index is out of
range and no modulo is taken by zero. -/
theorem calls_never_panic (T : Type) [Inhabited T] [Number T] (c : Nat) (hc : 1 ≤ c)
    (calls : List (Call T)) :
    (∃ cb, runCircularCalls (c : Int) calls = .ok cb ∧
      cb.head = ((appended calls).length : Int)) ∧
    (∃ cb, runNumericCalls (c : Int) calls = .ok cb ∧
      cb.head = ((appended calls).length : Int)) := by
  have hc0 : 0 < c := by omega
  constructor
  · obtain ⟨cb, h, hr⟩ := CircularBuffer.calls_ok hc0 calls []
      { buffer := List.replicate c (default : T), size := c, head := 0 }
      ⟨rfl, rfl, RingInv_replicate c default⟩
    refine ⟨cb, ?_, by simpa using hr.2.1⟩
    simp only [runCircularCalls, NewCircularBuffer_natCast]
    exact h
  · obtain ⟨cb, h, hr⟩ := NumericCircularBuffer.calls_ok_numeric hc0 calls []
      { buffer := List.replicate c (Number.zero : T), size := c, head := 0,
        count := .fin 0, sum := .fin 0, sqsum := .fin 0, min := .pinf, max := .ninf }
      ⟨rfl, rfl, RingInv_replicate c Number.zero⟩
    refine ⟨cb, ?_, by simpa using hr.2.1⟩
    simp only [runNumericCalls, NewNumericCircularBuffer_natCast]
    exact h

/-- Witness of C19: capacity 3 with appends interleaved with `Get(-1)`,
`Get(100)`, `Get(2)` and `Slice()`. -/
theorem calls_never_panic_witness :
    1 ≤ 3 ∧
    (∃ cb, runCircularCalls 3 [Call.Append (5 : Int), .Get (-1), .Slice, .Append 1,
        .Append 4, .Append 9, .Get 100, .Slice, .Get 2] = .ok cb ∧ cb.head = 4) ∧
    (∃ cb, runNumericCalls 3 [Call.Append (5 : Int), .Get (-1), .Slice, .Append 1,
        .Append 4, .Append 9, .Get 100, .Slice, .Get 2] = .ok cb ∧ cb.head = 4) :=
  ⟨by decide, calls_never_panic Int 3 (by decide) [Call.Append (5 : Int), .Get (-1), .Slice,
    .Append 1, .Append 4, .Append 9, .Get 100, .Slice, .Get 2]⟩

/-- C20 (the code departs from the claim). On a list of exactly one element
`Pop()` and `Shift()` panic with a nil dereference, whether the element was
added by `Push` or by `Unshift`; on the two-element list built by `Push(1)`,
`Push(2)`, `Pop()` returns 2 and `Shift()` returns 1, each leaving `Len() = 1`
and the other element in `Slice()`. -/
theorem Pop_Shift_single_element :
    ((NewLinkedList : LinkedList Int).Push 1 >>= fun ll => ll.Pop)
      = .error .nilDereference ∧
    ((NewLinkedList : LinkedList Int).Push 1 >>= fun ll => ll.Shift)
      = .error .nilDereference ∧
    ((NewLinkedList : LinkedList Int).Unshift 1 >>= fun ll => ll.Pop)
      = .error .nilDereference ∧
    ((NewLinkedList : LinkedList Int).Unshift 1 >>= fun ll => ll.Shift)
      = .error .nilDereference ∧
    (((NewLinkedList : LinkedList Int).Push 1 >>= fun ll => ll.Slice) = .ok [1]) ∧
    (((NewLinkedList : LinkedList Int).Push 1 >>= fun ll => ll.Push 2) >>= fun ll => ll.Slice)
      = .ok [1, 2] ∧
    ((((NewLinkedList : LinkedList Int).Push 1 >>= fun ll => ll.Push 2) >>= fun ll => ll.Pop)
      >>= fun r => r.2.Slice >>= fun s => pure (r.1, r.2.Len, s)) = .ok (2, 1, [1]) ∧
    ((((NewLinkedList : LinkedList Int).Push 1 >>= fun ll => ll.Push 2) >>= fun ll => ll.Shift)
      >>= fun r => r.2.Slice >>= fun s => pure (r.1, r.2.Len, s)) = .ok (1, 1, [2]) := by
  decide

end Generic
